import Mathlib

/-!
# Verification of the totala-re HPI codec

Shallow embedding of the HPI archive parser (`hpi_parser.py`) and
assembler (`hpi_assembler.py`) of the `totala-re` repository, with
theorems settling the frozen specification claims.

Bytes are modelled as `Nat` values (< 256 where the Python type
guarantees it); byte strings as `List Nat`.  Stateful Python code is
embedded as explicit state passing; Python exceptions become `Option`.
The external `zlib` library is not repository code: the SQSH codec is
parametrised over the deflate compressor/decompressor exactly where the
Python delegates to `zlib`.
-/

namespace HPI

/-- 64 KiB chunk size used by HPI files (`CHUNK_SIZE = 0x10000`). -/
def CHUNK_SIZE : Nat := 0x10000

/-! ## Little-endian 32-bit helpers (`struct.pack("<I")` / `unpack`) -/

/-- The four little-endian bytes of `v` (low 32 bits), as written by
`struct.pack("<I", v)`. -/
def u32le (v : Nat) : List Nat :=
  [v % 2 ^ 32 % 256, v % 2 ^ 32 / 256 % 256, v % 2 ^ 32 / 65536 % 256,
   v % 2 ^ 32 / 16777216 % 256]

/-- Read four bytes at index `i` of `l` as a little-endian u32
(`struct.unpack_from("<I", l, i)`); `none` when fewer than four bytes
are available, as `struct` raises there. -/
def readU32 (l : List Nat) (i : Nat) : Option Nat :=
  match l[i]?, l[i+1]?, l[i+2]?, l[i+3]? with
  | some a, some b, some c, some d => some (a + b * 256 + c * 65536 + d * 16777216)
  | _, _, _, _ => none

/-! ## Obfuscation layer (spec section 4.1)

`HPIAssembler.__init__` / `HPIHeader.__init__` both derive the
transformed key the same way. -/

/-- Effective key derivation shared by `hpi_assembler.py:54-57` and
`hpi_parser.py:33-36`: `(((K >> 6) | (K << 2)) & 0xFF) ^ 0xFF` when
`K != 0`, else `0`. -/
def transformKey (k : Nat) : Nat :=
  if k ≠ 0 then ((k >>> 6 ||| k <<< 2) &&& 0xFF) ^^^ 0xFF else 0

/-- Python's `(~x) & 0xFF` on a non-negative int: flip the low eight
bits (two's-complement `~x = -x-1`, so `(~x) & 0xFF = (x & 0xFF) ^ 0xFF`). -/
def notByte (x : Nat) : Nat := (x &&& 0xFF) ^^^ 0xFF

/-- `HPIAssembler._encrypt_data` (`hpi_assembler.py:134-143`):
position-dependent XOR cipher; identity when `key = 0`.
Stored byte = `(~(pos ^ key ^ byte)) & 0xFF`. -/
def encryptData (data : List Nat) (key : Nat) : List Nat :=
  if key = 0 then data
  else
    (List.range data.length).map fun i =>
      let pos := (i + 0x14) &&& 0xFF
      notByte (pos ^^^ key ^^^ data.getD i 0)

/-- `HPIParser._decrypt_data` (`hpi_parser.py:82-92`), with the default
`start_offset = 0x14`: plaintext byte = `pos ^ key ^ (~byte & 0xFF)`. -/
def decryptData (data : List Nat) (key : Nat) : List Nat :=
  if key = 0 then data
  else
    (List.range data.length).map fun i =>
      let pos := (i + 0x14) &&& 0xFF
      pos ^^^ key ^^^ notByte (data.getD i 0)

/-! ### Obfuscation involution (claim C3) -/

theorem xor_lt_256 {x y : Nat} (hx : x < 256) (hy : y < 256) :
    x ^^^ y < 256 := @Nat.xor_lt_two_pow x y 8 hx hy

theorem and_255_lt (x : Nat) : x &&& 255 < 256 :=
  @Nat.and_lt_two_pow x 255 8 (by norm_num)

theorem notByte_eq_xor {x : Nat} (h : x < 256) : notByte x = x ^^^ 0xFF := by
  unfold notByte
  rw [show (0xFF : Nat) = 2 ^ 8 - 1 from rfl,
    @Nat.and_pow_two_sub_one_of_lt_two_pow 8 x h]

theorem transformKey_lt (k : Nat) : transformKey k < 256 := by
  unfold transformKey
  split
  · exact xor_lt_256 (and_255_lt _) (by norm_num)
  · norm_num

theorem mapRange_getD {n i : Nat} (f : Nat → Nat) (h : i < n) :
    ((List.range n).map f).getD i 0 = f i := by
  rw [List.getD_eq_getElem?_getD, List.getElem?_map, List.getElem?_range h]
  rfl

theorem xor_cancel_left (a c : Nat) : a ^^^ (a ^^^ c) = c := by
  rw [← Nat.xor_assoc, Nat.xor_self, Nat.zero_xor]

/-- Pointwise: decrypting an encrypted byte recovers it. -/
theorem decrypt_encrypt_byte {pos k b : Nat} (hp : pos < 256) (hk : k < 256)
    (hb : b < 256) : pos ^^^ k ^^^ notByte (notByte (pos ^^^ k ^^^ b)) = b := by
  have h1 : pos ^^^ k ^^^ b < 256 :=
    xor_lt_256 (xor_lt_256 hp hk) hb
  rw [notByte_eq_xor h1, notByte_eq_xor (xor_lt_256 h1 (by norm_num)),
    Nat.xor_assoc (pos ^^^ k ^^^ b) 255 255, Nat.xor_self, Nat.xor_zero]
  exact xor_cancel_left (pos ^^^ k) b

/-- Pointwise: encrypting an encrypted byte also recovers it (the
transform is self-inverse). -/
theorem encrypt_encrypt_byte {pos k b : Nat} (hp : pos < 256) (hk : k < 256)
    (hb : b < 256) : notByte (pos ^^^ k ^^^ notByte (pos ^^^ k ^^^ b)) = b := by
  have h1 : pos ^^^ k ^^^ b < 256 :=
    xor_lt_256 (xor_lt_256 hp hk) hb
  rw [notByte_eq_xor h1, ← Nat.xor_assoc (pos ^^^ k) (pos ^^^ k ^^^ b) 255,
    xor_cancel_left (pos ^^^ k) b]
  have h2 : b ^^^ 0xFF < 256 := xor_lt_256 hb (by norm_num)
  rw [notByte_eq_xor h2, Nat.xor_assoc b 255 255, Nat.xor_self, Nat.xor_zero]

theorem encryptData_length (data : List Nat) (k : Nat) :
    (encryptData data k).length = data.length := by
  unfold encryptData; split <;> simp

theorem mapRange_getD_eq_self (B : List Nat) :
    (List.range B.length).map (fun i => B.getD i 0) = B := by
  apply List.ext_getElem (by simp)
  intro i hi hi2
  rw [List.getElem_map, List.getElem_range, List.getD_eq_getElem?_getD,
    List.getElem?_eq_getElem hi2]
  rfl

/-- C3: The obfuscation transform of section 4.1 is an involution: for any
byte string `B` and key byte `K < 256`, with effective key
`K' = transformKey K`, the assembler's `_encrypt_data` followed by the
parser's `_decrypt_data` is the identity on `B`, and applying
`_encrypt_data` twice is also the identity. -/
theorem obfuscation_involution (B : List Nat) (K : Nat)
    (hB : ∀ b ∈ B, b < 256) (hK : K < 256) :
    decryptData (encryptData B (transformKey K)) (transformKey K) = B ∧
    encryptData (encryptData B (transformKey K)) (transformKey K) = B := by
  set k := transformKey K with hk
  have hklt : k < 256 := transformKey_lt K
  by_cases h0 : k = 0
  · constructor <;> simp [encryptData, decryptData, h0]
  · have henc : encryptData B k =
        (List.range B.length).map fun i =>
          notByte (((i + 0x14) &&& 0xFF) ^^^ k ^^^ B.getD i 0) := by
      unfold encryptData; rw [if_neg h0]
    have hlen : (encryptData B k).length = B.length := encryptData_length B k
    have hpos : ∀ i : Nat, (i + 0x14) &&& 0xFF < 256 := fun i =>
      and_255_lt _
    have hbyte : ∀ i, i < B.length → B.getD i 0 < 256 := by
      intro i hi
      rw [List.getD_eq_getElem?_getD, List.getElem?_eq_getElem hi]
      exact hB _ (B.getElem_mem hi)
    have hmid : ∀ i, i < B.length →
        (encryptData B k).getD i 0 =
          notByte (((i + 0x14) &&& 0xFF) ^^^ k ^^^ B.getD i 0) := by
      intro i hi
      rw [henc, mapRange_getD _ hi]
    constructor
    · unfold decryptData
      rw [if_neg h0, hlen]
      calc (List.range B.length).map (fun i =>
              ((i + 0x14) &&& 0xFF) ^^^ k ^^^ notByte ((encryptData B k).getD i 0))
          = (List.range B.length).map (fun i => B.getD i 0) := by
            apply List.map_congr_left
            intro i hi
            have hiB : i < B.length := List.mem_range.mp hi
            rw [hmid i hiB]
            exact decrypt_encrypt_byte (hpos i) hklt (hbyte i hiB)
        _ = B := mapRange_getD_eq_self B
    · conv_lhs => rw [show encryptData (encryptData B k) k =
        (List.range (encryptData B k).length).map (fun i =>
          notByte (((i + 0x14) &&& 0xFF) ^^^ k ^^^ (encryptData B k).getD i 0))
        from by unfold encryptData; rw [if_neg h0]]
      rw [hlen]
      calc (List.range B.length).map (fun i =>
              notByte (((i + 0x14) &&& 0xFF) ^^^ k ^^^ (encryptData B k).getD i 0))
          = (List.range B.length).map (fun i => B.getD i 0) := by
            apply List.map_congr_left
            intro i hi
            have hiB : i < B.length := List.mem_range.mp hi
            rw [hmid i hiB]
            exact encrypt_encrypt_byte (hpos i) hklt (hbyte i hiB)
        _ = B := mapRange_getD_eq_self B

/-- Witness for C3 at `B = [0, 72, 255]`, `K = 42`. -/
theorem obfuscation_involution_witness :
    decryptData (encryptData [0, 72, 255] (transformKey 42)) (transformKey 42)
      = [0, 72, 255] ∧
    encryptData (encryptData [0, 72, 255] (transformKey 42)) (transformKey 42)
      = [0, 72, 255] :=
  obfuscation_involution [0, 72, 255] 42 (by decide) (by decide)

/-! ## Bespoke LZ77 decoder (`HPIParser._decompress_lz77`, `hpi_parser.py:249-301`)

The 4096-byte dictionary `dbuf = bytearray(4096)` is modelled as a
function `Nat → Nat` (initially constantly `0`) together with explicit
`< 4096` bounds checks on every access: Python's unguarded index
operations on it (`dbuf[dptr]`, `dbuf[w1] = byte`) raise `IndexError`
outside `[0, 4096)`, which the embedding renders as `none`.  Reads of
`src` are guarded by explicit bounds checks in the Python and therefore
use `getD`.  The `while` loop is embedded with fuel; running out of
fuel yields `none`, and the totality theorem shows the chosen fuel
always suffices. -/

/-- Point update of a byte-buffer function: `w[i] = b`. -/
def updFn (w : Nat → Nat) (i b : Nat) : Nat → Nat :=
  fun j => if j = i then b else w j

/-- Checked read `dbuf[i]` of the 4096-byte dictionary. -/
def dbufGet (d : Nat → Nat) (i : Nat) : Option Nat :=
  if i < 4096 then some (d i) else none

/-- Checked store `dbuf[i] = b` of the 4096-byte dictionary. -/
def dbufSet (d : Nat → Nat) (i b : Nat) : Option (Nat → Nat) :=
  if i < 4096 then some (updFn d i b) else none

/-- Decoder loop state: dictionary, write cursor `w1`, flag mask `w2`,
flag byte `w3`, input position, output accumulator. -/
structure LZState where
  dbuf : Nat → Nat
  w1 : Nat
  w2 : Nat
  w3 : Nat
  inPos : Nat
  out : List Nat

/-- The inner copy loop of a back-reference (`hpi_parser.py:281-288`):
emit `n` bytes from the dictionary, writing each back at `w1`, stopping
early once `out` reaches `expected` bytes.  Returns the new
`(dbuf, dptr, w1, out)`. -/
def copyRun (expected : Nat) (dbuf : Nat → Nat) (dptr w1 : Nat)
    (out : List Nat) : Nat → Option ((Nat → Nat) × Nat × Nat × List Nat)
  | 0 => some (dbuf, dptr, w1, out)
  | n + 1 =>
    match dbufGet dbuf dptr with
    | none => none
    | some byte =>
      let out' := out ++ [byte]
      match dbufSet dbuf w1 byte with
      | none => none
      | some dbuf' =>
        let dptr' := (dptr + 1) &&& 0xFFF
        let w1' := (w1 + 1) &&& 0xFFF
        if expected ≤ out'.length then some (dbuf', dptr', w1', out')
        else copyRun expected dbuf' dptr' w1' out' n

/-- The flag-advance tail run after each symbol
(`hpi_parser.py:289-299`): shift `w2`, refresh the flag byte when the
mask overflows, and apply the final source-exhaustion check.
`Sum.inr` is a `break` out of the `while` loop. -/
def lzTail (src : List Nat) (expected : Nat) (st : LZState) :
    LZState ⊕ List Nat :=
  let w2 := st.w2 <<< 1
  if w2 &&& 0x100 ≠ 0 then
    if src.length ≤ st.inPos then Sum.inr st.out
    else Sum.inl { st with w2 := 1, w3 := src.getD st.inPos 0,
                           inPos := st.inPos + 1 }
  else
    if src.length ≤ st.inPos ∧ w2 ≠ 1 ∧ expected ≤ st.out.length then
      Sum.inr st.out
    else Sum.inl { st with w2 := w2 }

/-- One iteration of the decoder's `while` body
(`hpi_parser.py:264-299`); `Sum.inr` is a `break`. -/
def lzStep (src : List Nat) (expected : Nat) (st : LZState) :
    Option (LZState ⊕ List Nat) :=
  if st.w2 &&& st.w3 = 0 then
    -- literal
    if src.length ≤ st.inPos then some (Sum.inr st.out)
    else
      let byte := src.getD st.inPos 0
      match dbufSet st.dbuf st.w1 byte with
      | none => none
      | some dbuf =>
        some (lzTail src expected
          { st with dbuf := dbuf, w1 := (st.w1 + 1) &&& 0xFFF,
                    inPos := st.inPos + 1, out := st.out ++ [byte] })
  else
    -- back-reference
    if src.length ≤ st.inPos + 1 then some (Sum.inr st.out)
    else
      let count := src.getD st.inPos 0 ||| (src.getD (st.inPos + 1) 0) <<< 8
      let dptr := count >>> 4
      if dptr = 0 then some (Sum.inr st.out)
      else
        match copyRun expected st.dbuf dptr st.w1 st.out
            ((count &&& 0x0F) + 2) with
        | none => none
        | some (dbuf, _, w1, out) =>
          some (lzTail src expected
            { st with dbuf := dbuf, w1 := w1, inPos := st.inPos + 2,
                      out := out })

/-- The decoder's `while len(out) < expected_size` loop, with fuel. -/
def lzLoop (src : List Nat) (expected : Nat) : Nat → LZState → Option (List Nat)
  | fuel, st =>
    if expected ≤ st.out.length then some st.out
    else
      match fuel with
      | 0 => none
      | fuel + 1 =>
        match lzStep src expected st with
        | none => none
        | some (Sum.inr out) => some out
        | some (Sum.inl st') => lzLoop src expected fuel st'

/-- `HPIParser._decompress_lz77` (`hpi_parser.py:249-301`).  The fuel
`expected` suffices because every continuing iteration appends at least
one output byte (shown by `decompress_lz77_total`). -/
def decompressLZ77 (src : List Nat) (expected : Nat) : Option (List Nat) :=
  if src = [] then some []
  else
    match lzLoop src expected expected
        ⟨fun _ => 0, 1, 1, src.getD 0 0, 1, []⟩ with
    | none => none
    | some out => some (out.take expected)

/-! ### LZ77 decoder totality (claim C9) -/

theorem getD_lt_256 {src : List Nat} (hsrc : ∀ b ∈ src, b < 256) (i : Nat) :
    src.getD i 0 < 256 := by
  rcases Nat.lt_or_ge i src.length with h | h
  · rw [List.getD_eq_getElem?_getD, List.getElem?_eq_getElem h]
    exact hsrc _ (src.getElem_mem h)
  · rw [List.getD_eq_getElem?_getD, List.getElem?_eq_none h]
    norm_num

theorem and_xFFF_lt (x : Nat) : x &&& 0xFFF < 4096 :=
  @Nat.and_lt_two_pow x 0xFFF 12 (by norm_num)

/-- `copyRun` succeeds whenever the dictionary accesses start in
bounds; the output grows by at least one byte when `n ≥ 1`. -/
theorem copyRun_some (expected : Nat) :
    ∀ (n : Nat) (dbuf : Nat → Nat) (dptr w1 : Nat) (out : List Nat),
      dptr < 4096 → w1 < 4096 →
      ∃ dbuf' dptr' w1' out',
        copyRun expected dbuf dptr w1 out n = some (dbuf', dptr', w1', out') ∧
        dptr' < 4096 ∧ w1' < 4096 ∧
        out.length ≤ out'.length ∧ (1 ≤ n → out.length < out'.length) := by
  intro n
  induction n with
  | zero =>
    intro dbuf dptr w1 out hd hw
    exact ⟨dbuf, dptr, w1, out, rfl, hd, hw, le_refl _, by omega⟩
  | succ n ih =>
    intro dbuf dptr w1 out hd hw
    have hread : dbufGet dbuf dptr = some (dbuf dptr) := by
      unfold dbufGet; rw [if_pos hd]
    have hset : dbufSet dbuf w1 (dbuf dptr) = some (updFn dbuf w1 (dbuf dptr)) := by
      unfold dbufSet; rw [if_pos hw]
    rw [copyRun, hread]
    simp only [hset]
    by_cases hstop : expected ≤ (out ++ [dbuf dptr]).length
    · rw [if_pos hstop]
      refine ⟨_, _, _, _, rfl, and_xFFF_lt _, and_xFFF_lt _, ?_, ?_⟩ <;> simp
    · rw [if_neg hstop]
      obtain ⟨d', p', w', o', heq, hd', hw', hle, _⟩ :=
        ih (updFn dbuf w1 (dbuf dptr)) ((dptr + 1) &&& 0xFFF)
          ((w1 + 1) &&& 0xFFF) (out ++ [dbuf dptr]) (and_xFFF_lt _)
          (and_xFFF_lt _)
      refine ⟨d', p', w', o', heq, hd', hw', ?_, ?_⟩
      · simp at hle; omega
      · intro _; simp at hle; omega

/-- `lzTail` either breaks with the current output or continues with a
state that keeps the dictionary, cursor and output unchanged. -/
theorem lzTail_cases (src : List Nat) (expected : Nat) (st : LZState) :
    lzTail src expected st = Sum.inr st.out ∨
    ∃ st', lzTail src expected st = Sum.inl st' ∧ st'.dbuf = st.dbuf ∧
      st'.w1 = st.w1 ∧ st'.out = st.out := by
  unfold lzTail
  dsimp only
  split
  · split
    · exact Or.inl rfl
    · exact Or.inr ⟨_, rfl, rfl, rfl, rfl⟩
  · split
    · exact Or.inl rfl
    · exact Or.inr ⟨_, rfl, rfl, rfl, rfl⟩

/-- Each decoder step either breaks or yields a continuation state whose
invariants hold and whose output is strictly longer. -/
theorem lzStep_cases (src : List Nat) (expected : Nat) (st : LZState)
    (hsrc : ∀ b ∈ src, b < 256) (hw : st.w1 < 4096) :
    (∃ out, lzStep src expected st = some (Sum.inr out)) ∨
    (∃ st', lzStep src expected st = some (Sum.inl st') ∧
      st'.w1 < 4096 ∧ st.out.length < st'.out.length) := by
  unfold lzStep
  dsimp only
  split
  · -- literal path
    split
    · exact Or.inl ⟨_, rfl⟩
    · have hset : dbufSet st.dbuf st.w1 (src.getD st.inPos 0)
          = some (updFn st.dbuf st.w1 (src.getD st.inPos 0)) := by
        unfold dbufSet; rw [if_pos hw]
      rw [hset]
      dsimp only
      rcases lzTail_cases src expected
          { st with dbuf := updFn st.dbuf st.w1 (src.getD st.inPos 0),
                    w1 := (st.w1 + 1) &&& 0xFFF,
                    inPos := st.inPos + 1,
                    out := st.out ++ [src.getD st.inPos 0] } with
        htail | ⟨st', htail, hd, hw1, ho⟩
      · rw [htail]; exact Or.inl ⟨_, rfl⟩
      · rw [htail]
        refine Or.inr ⟨st', rfl, ?_, ?_⟩
        · rw [hw1]; exact and_xFFF_lt _
        · rw [ho]; simp
  · -- back-reference path
    split
    · exact Or.inl ⟨_, rfl⟩
    · set count := src.getD st.inPos 0 ||| (src.getD (st.inPos + 1) 0) <<< 8
        with hcount
      split
      · exact Or.inl ⟨_, rfl⟩
      · have hcountlt : count < 65536 := by
          rw [hcount]
          refine @Nat.or_lt_two_pow _ _ 16 ?_ ?_
          · exact lt_trans (getD_lt_256 hsrc _) (by norm_num)
          · rw [Nat.shiftLeft_eq]
            have hb := getD_lt_256 hsrc (st.inPos + 1)
            have h8 : (2 : Nat) ^ 8 = 256 := by norm_num
            have h16 : (2 : Nat) ^ 16 = 65536 := by norm_num
            rw [h8, h16]
            omega
        have hdptr : count >>> 4 < 4096 := by
          rw [Nat.shiftRight_eq_div_pow]
          omega
        obtain ⟨d', p', w', o', heq, _, hw', _, hgrow⟩ :=
          copyRun_some expected ((count &&& 0x0F) + 2) st.dbuf (count >>> 4)
            st.w1 st.out hdptr hw
        rw [heq]
        dsimp only
        rcases lzTail_cases src expected
            { st with dbuf := d', w1 := w', inPos := st.inPos + 2,
                      out := o' } with
          htail | ⟨st', htail, hd, hw1, ho⟩
        · rw [htail]; exact Or.inl ⟨_, rfl⟩
        · rw [htail]
          refine Or.inr ⟨st', rfl, ?_, ?_⟩
          · rw [hw1]; exact hw'
          · rw [ho]; exact hgrow (by omega)

/-- The decoder loop succeeds whenever the fuel covers the remaining
output budget. -/
theorem lzLoop_some (src : List Nat) (expected : Nat)
    (hsrc : ∀ b ∈ src, b < 256) :
    ∀ (fuel : Nat) (st : LZState),
      st.w1 < 4096 →
      expected ≤ st.out.length + fuel →
      ∃ out, lzLoop src expected fuel st = some out := by
  intro fuel
  induction fuel with
  | zero =>
    intro st hw hfuel
    rw [lzLoop, if_pos (by omega)]
    exact ⟨_, rfl⟩
  | succ fuel ih =>
    intro st hw hfuel
    rw [lzLoop]
    by_cases hdone : expected ≤ st.out.length
    · rw [if_pos hdone]; exact ⟨_, rfl⟩
    · rw [if_neg hdone]
      rcases lzStep_cases src expected st hsrc hw with
        ⟨out, hstep⟩ | ⟨st', hstep, hw', hgrow⟩
      · rw [hstep]; exact ⟨_, rfl⟩
      · rw [hstep]
        exact ih st' hw' (by omega)

/-- C9: `_decompress_lz77` is total: for every byte string `src` and
every expected size, it performs only in-bounds dictionary accesses,
terminates without raising, and returns an output of length at most
`expected_size`. -/
theorem decompress_lz77_total (src : List Nat) (expected : Nat)
    (hsrc : ∀ b ∈ src, b < 256) :
    ∃ out, decompressLZ77 src expected = some out ∧
      out.length ≤ expected := by
  unfold decompressLZ77
  by_cases hsrc0 : src = []
  · rw [if_pos hsrc0]
    exact ⟨[], rfl, by simp⟩
  · rw [if_neg hsrc0]
    obtain ⟨out, hloop⟩ := lzLoop_some src expected hsrc expected
      ⟨fun _ => 0, 1, 1, src.getD 0 0, 1, []⟩
      (show (1 : Nat) < 4096 by norm_num) (Nat.le_add_left _ _)
    rw [hloop]
    exact ⟨out.take expected, rfl, by simp⟩

/-- Witness for C9 at `src = [2, 1, 16, 0]`, `expected_size = 3`. -/
theorem decompress_lz77_total_witness :
    ∃ out, decompressLZ77 [2, 1, 16, 0] 3 = some out ∧ out.length ≤ 3 :=
  decompress_lz77_total [2, 1, 16, 0] 3 (by decide)

/-! ## Bespoke LZ77 encoder (`HPIAssembler._compress_lz77`,
`hpi_assembler.py:225-322`)

The encoder's byte output has block structure: each outer `while`
iteration emits one flag byte (backfilled at `chunk_start`) followed by
the bytes of up to eight symbols.  We embed the per-symbol loop as
`lzBlockLoop`, producing the symbol list of one block together with the
updated window state; `compressLZ77` then serialises blocks exactly as
the Python does (flag byte first, literals as one byte, back-references
as two bytes, little-endian).  The window `bytearray(4096)` is a
function `Nat → Nat`; every index the encoder uses is masked with
`& 0xFFF` (or is the cursor, which is kept masked), so no bounds check
is ever reached in the Python.

The two `while` loops (match extension and the outer block loop) are
embedded with an explicit iteration counter so that the definitions
compute by kernel reduction; the counters are chosen large enough that
they never cut an iteration short (`matchExtend` can increment `ml` at
most `maxMatch - ml` times before its own condition stops it, and the
outer loop strictly advances `pos`, so it runs at most `data.length`
times); `matchExtend_fuel_irrel` and `lzOuter_fuel_irrel` prove this
independence of the counters. -/

/-- A symbol emitted by the encoder: a literal byte, or a
back-reference carrying the Python `encoded` value
`(best_match_offset << 4) | ((best_match_length - 2) & 0x0F)`. -/
inductive LZSym where
  | lit (b : Nat)
  | ref (encoded : Nat)
deriving DecidableEq

/-- The match-extension `while` loop (`hpi_assembler.py:270-275`):
grow `ml` while below `maxMatch` and the window byte at
`(wp - offset + ml) & 0xFFF` matches `data[pos + ml]`. -/
def matchExtend (window : Nat → Nat) (wp offset : Nat) (data : List Nat)
    (pos maxMatch : Nat) : Nat → Nat → Nat
  | 0, ml => ml
  | n + 1, ml =>
    if window ((wp - offset + ml) &&& 0xFFF) = data.getD (pos + ml) 0
        ∧ ml < maxMatch
    then matchExtend window wp offset data pos maxMatch n (ml + 1)
    else ml

theorem matchExtend_stops (window : Nat → Nat) (wp offset : Nat)
    (data : List Nat) (pos maxMatch : Nat) :
    ∀ (n ml : Nat), maxMatch ≤ ml →
      matchExtend window wp offset data pos maxMatch n ml = ml := by
  intro n
  induction n with
  | zero => intro ml _; rfl
  | succ n ih =>
    intro ml hml
    rw [matchExtend, if_neg (by omega)]

/-- The iteration counter does not affect `matchExtend` once it covers
the remaining headroom `maxMatch - ml`. -/
theorem matchExtend_fuel_irrel (window : Nat → Nat) (wp offset : Nat)
    (data : List Nat) (pos maxMatch : Nat) :
    ∀ (n₁ : Nat) (n₂ ml : Nat), maxMatch - ml ≤ n₁ → maxMatch - ml ≤ n₂ →
      matchExtend window wp offset data pos maxMatch n₁ ml =
        matchExtend window wp offset data pos maxMatch n₂ ml := by
  intro n₁
  induction n₁ with
  | zero =>
    intro n₂ ml h1 h2
    rw [matchExtend]
    rw [matchExtend_stops window wp offset data pos maxMatch n₂ ml (by omega)]
  | succ n₁ ih =>
    intro n₂ ml h1 h2
    by_cases hml : maxMatch ≤ ml
    · rw [matchExtend_stops _ _ _ _ _ _ _ _ hml,
        matchExtend_stops _ _ _ _ _ _ _ _ hml]
    · obtain ⟨n₂', rfl⟩ : ∃ m, n₂ = m + 1 := ⟨n₂ - 1, by omega⟩
      rw [matchExtend, matchExtend]
      split
      · exact ih n₂' (ml + 1) (by omega) (by omega)
      · rfl

/-- The candidate-offset search loop (`hpi_assembler.py:264-283`):
fold over `offset in range(1, min(window_pos, 4096))`, keeping the best
`(offset, length)` pair; a computed offset of `0` is replaced by
`4096`. -/
def findBestMatch (window : Nat → Nat) (wp : Nat) (data : List Nat)
    (pos maxMatch : Nat) : Nat × Nat :=
  (List.range' 1 (min wp 4096 - 1)).foldl
    (fun best offset =>
      if window ((wp - offset) &&& 0xFFF) ≠ data.getD pos 0 then best
      else
        let ml := matchExtend window wp offset data pos maxMatch maxMatch 1
        if best.2 < ml then
          let off := (wp - offset) &&& 0xFFF
          (if off = 0 then 4096 else off, ml)
        else best)
    (0, 0)

/-- Window update after emitting a back-reference
(`hpi_assembler.py:296-301`): write the matched input bytes at the
cursor, stopping at end of input. -/
def refWindowUpdate (data : List Nat) (window : Nat → Nat) (wp pos : Nat) :
    Nat → (Nat → Nat) × Nat
  | 0 => (window, wp)
  | n + 1 =>
    if data.length ≤ pos then (window, wp)
    else refWindowUpdate data (updFn window wp (data.getD pos 0))
      ((wp + 1) &&& 0xFFF) (pos + 1) n

/-- The per-block symbol loop (`for bit_idx in range(8)`,
`hpi_assembler.py:251-313`).  Returns the block's symbols and the
updated `(window, window_pos, pos)`. -/
def lzBlockLoop (data : List Nat) :
    Nat → (Nat → Nat) → Nat → Nat → List LZSym × (Nat → Nat) × Nat × Nat
  | 0, window, wp, pos => ([], window, wp, pos)
  | bitsLeft + 1, window, wp, pos =>
    if data.length ≤ pos then ([], window, wp, pos)
    else
      let mm := min 17 (data.length - pos)
      let best := findBestMatch window wp data pos mm
      if 2 ≤ best.2 then
        let encoded := (best.1 <<< 4) ||| ((best.2 - 2) &&& 0x0F)
        let wu := refWindowUpdate data window wp pos best.2
        let r := lzBlockLoop data bitsLeft wu.1 wu.2 (pos + best.2)
        (LZSym.ref encoded :: r.1, r.2)
      else
        let b := data.getD pos 0
        let r := lzBlockLoop data bitsLeft (updFn window wp b)
          ((wp + 1) &&& 0xFFF) (pos + 1)
        (LZSym.lit b :: r.1, r.2)

theorem lzBlockLoop_pos_le (data : List Nat) :
    ∀ (n : Nat) (window : Nat → Nat) (wp pos : Nat),
      pos ≤ (lzBlockLoop data n window wp pos).2.2.2 := by
  intro n
  induction n with
  | zero => intro window wp pos; exact Nat.le_refl _
  | succ n ih =>
    intro window wp pos
    rw [lzBlockLoop]
    dsimp only
    split
    · exact Nat.le_refl _
    · split
      · dsimp only
        have := ih (refWindowUpdate data window wp pos
            (findBestMatch window wp data pos (min 17 (data.length - pos))).2).1
          (refWindowUpdate data window wp pos
            (findBestMatch window wp data pos (min 17 (data.length - pos))).2).2
          (pos + (findBestMatch window wp data pos (min 17 (data.length - pos))).2)
        omega
      · dsimp only
        have := ih (updFn window wp (data.getD pos 0)) ((wp + 1) &&& 0xFFF)
          (pos + 1)
        omega

theorem lzBlockLoop_pos_lt (data : List Nat) (n : Nat)
    (window : Nat → Nat) (wp pos : Nat) (hpos : pos < data.length)
    (hn : 1 ≤ n) : pos < (lzBlockLoop data n window wp pos).2.2.2 := by
  obtain ⟨n, rfl⟩ : ∃ m, n = m + 1 := ⟨n - 1, by omega⟩
  rw [lzBlockLoop]
  dsimp only
  rw [if_neg (by omega)]
  split
  · dsimp only
    have := lzBlockLoop_pos_le data n
      (refWindowUpdate data window wp pos
        (findBestMatch window wp data pos (min 17 (data.length - pos))).2).1
      (refWindowUpdate data window wp pos
        (findBestMatch window wp data pos (min 17 (data.length - pos))).2).2
      (pos + (findBestMatch window wp data pos (min 17 (data.length - pos))).2)
    omega
  · dsimp only
    have := lzBlockLoop_pos_le data n (updFn window wp (data.getD pos 0))
      ((wp + 1) &&& 0xFFF) (pos + 1)
    omega

/-- The encoder's outer `while pos < len(data)` loop
(`hpi_assembler.py:242-320`), as the list of blocks.  The first
argument is the iteration counter (see the section comment). -/
def lzOuter (data : List Nat) : Nat → (Nat → Nat) → Nat → Nat → List (List LZSym)
  | 0, _, _, _ => []
  | fuel + 1, window, wp, pos =>
    if pos < data.length then
      let r := lzBlockLoop data 8 window wp pos
      r.1 :: lzOuter data fuel r.2.1 r.2.2.1 r.2.2.2
    else []

/-- The iteration counter does not affect `lzOuter` once it covers the
remaining input `data.length - pos`. -/
theorem lzOuter_fuel_irrel (data : List Nat) :
    ∀ (f₁ : Nat) (f₂ : Nat) (window : Nat → Nat) (wp pos : Nat),
      data.length - pos ≤ f₁ → data.length - pos ≤ f₂ →
      lzOuter data f₁ window wp pos = lzOuter data f₂ window wp pos := by
  intro f₁
  induction f₁ with
  | zero =>
    intro f₂ window wp pos h1 h2
    cases f₂ with
    | zero => rfl
    | succ f₂ => rw [lzOuter, lzOuter, if_neg (by omega)]
  | succ f₁ ih =>
    intro f₂ window wp pos h1 h2
    by_cases hpos : pos < data.length
    · obtain ⟨f₂', rfl⟩ : ∃ m, f₂ = m + 1 := ⟨f₂ - 1, by omega⟩
      rw [lzOuter, lzOuter, if_pos hpos, if_pos hpos]
      dsimp only
      have hlt := lzBlockLoop_pos_lt data 8 window wp pos hpos (by omega)
      rw [ih f₂' _ _ _ (by omega) (by omega)]
    · have hL : lzOuter data (f₁ + 1) window wp pos = [] := by
        rw [lzOuter, if_neg hpos]
      cases f₂ with
      | zero => rw [hL]; rfl
      | succ f₂ => rw [hL, lzOuter, if_neg hpos]

/-- Flag-byte assembly (`hpi_assembler.py:316-320`): bit `i` is set when
symbol `i` of the block is a back-reference (LSB first). -/
def controlByteAux : Nat → List LZSym → Nat
  | _, [] => 0
  | i, LZSym.lit _ :: rest => controlByteAux (i + 1) rest
  | i, LZSym.ref _ :: rest => (1 <<< i) ||| controlByteAux (i + 1) rest

/-- Byte serialisation of one symbol: a literal is one byte; a
back-reference is `encoded & 0xFF` then `(encoded >> 8) & 0xFF`
(`hpi_assembler.py:292-293, 307-308`). -/
def symBytes : LZSym → List Nat
  | .lit b => [b]
  | .ref c => [c &&& 0xFF, (c >>> 8) &&& 0xFF]

/-- `HPIAssembler._compress_lz77` (`hpi_assembler.py:225-322`): empty
input yields `b""`; otherwise each block is its flag byte followed by
its symbols' bytes. -/
def compressLZ77 (data : List Nat) : List Nat :=
  if data = [] then []
  else ((lzOuter data data.length (fun _ => 0) 1 0).map
    (fun syms => controlByteAux 0 syms :: (syms.map symBytes).flatten)).flatten

/-- All symbols the encoder emits for `data`, in order. -/
def lz77Symbols (data : List Nat) : List LZSym :=
  (lzOuter data data.length (fun _ => 0) 1 0).flatten


/-! ### The encoder never emits the end-of-stream sentinel (claim C8) -/

/-- Structural shape of every back-reference the encoder can emit: the
`encoded` value is `off <<< 4 ||| l` with a source index
`off ∈ [1, 4094]` and `l ≤ 15`. -/
def refWellFormed : LZSym → Prop
  | .lit _ => True
  | .ref c => ∃ off l, c = (off <<< 4) ||| l ∧ 1 ≤ off ∧ off ≤ 4094 ∧ l ≤ 15

theorem foldl_inv {α β : Type} (P : β → Prop) (Q : α → Prop) (f : β → α → β) :
    ∀ (l : List α), (∀ a ∈ l, Q a) → ∀ (init : β), P init →
      (∀ b a, P b → Q a → P (f b a)) → P (l.foldl f init) := by
  intro l
  induction l with
  | nil => intro _ init h0 _; exact h0
  | cons a l ih =>
    intro hQ init h0 hstep
    exact ih (fun x hx => hQ x (List.mem_cons_of_mem a hx)) (f init a)
      (hstep init a h0 (hQ a (List.mem_cons_self a l))) hstep

/-- The match search yields a source index in `[1, 4094]` whenever it
found any match at all (given the cursor invariant `wp < 4096`); in
particular the `offset == 0 → 4096` replacement branch never fires. -/
theorem findBestMatch_bounds (window : Nat → Nat) (wp : Nat)
    (data : List Nat) (pos mm : Nat) (hwp : wp < 4096) :
    1 ≤ (findBestMatch window wp data pos mm).2 →
    1 ≤ (findBestMatch window wp data pos mm).1 ∧
      (findBestMatch window wp data pos mm).1 ≤ 4094 := by
  unfold findBestMatch
  refine foldl_inv
    (fun (best : Nat × Nat) => 1 ≤ best.2 → 1 ≤ best.1 ∧ best.1 ≤ 4094)
    (fun (o : Nat) => 1 ≤ o ∧ o ≤ wp - 1) _ _ ?_ _ ?_ ?_
  · intro o ho
    rw [List.mem_range'_1] at ho
    omega
  · intro h; omega
  · intro best o hP hQ
    dsimp only
    split
    · exact hP
    · split
      · intro _
        have hsub : wp - o < 4096 := by omega
        have hmask : (wp - o) &&& 0xFFF = wp - o :=
          @Nat.and_pow_two_sub_one_of_lt_two_pow 12 _ hsub
        rw [hmask]
        rw [if_neg (by omega)]
        exact ⟨by omega, by omega⟩
      · exact hP

theorem refWindowUpdate_wp (data : List Nat) :
    ∀ (n : Nat) (window : Nat → Nat) (wp pos : Nat), wp < 4096 →
      (refWindowUpdate data window wp pos n).2 < 4096 := by
  intro n
  induction n with
  | zero => intro window wp pos hwp; exact hwp
  | succ n ih =>
    intro window wp pos hwp
    rw [refWindowUpdate]
    split
    · exact hwp
    · exact ih _ _ _ (and_xFFF_lt _)

/-- Every symbol a block emits is well formed, and the cursor invariant
is preserved. -/
theorem lzBlockLoop_refs (data : List Nat) :
    ∀ (n : Nat) (window : Nat → Nat) (wp pos : Nat), wp < 4096 →
      (∀ s ∈ (lzBlockLoop data n window wp pos).1, refWellFormed s) ∧
      (lzBlockLoop data n window wp pos).2.2.1 < 4096 := by
  intro n
  induction n with
  | zero =>
    intro window wp pos hwp
    exact ⟨(fun s hs => nomatch hs), hwp⟩
  | succ n ih =>
    intro window wp pos hwp
    rw [lzBlockLoop]
    dsimp only
    split
    · exact ⟨(fun s hs => nomatch hs), hwp⟩
    · split
      · -- back-reference branch
        dsimp only
        obtain ⟨ihsyms, ihwp⟩ := ih
          (refWindowUpdate data window wp pos
            (findBestMatch window wp data pos (min 17 (data.length - pos))).2).1
          (refWindowUpdate data window wp pos
            (findBestMatch window wp data pos (min 17 (data.length - pos))).2).2
          (pos + (findBestMatch window wp data pos (min 17 (data.length - pos))).2)
          (refWindowUpdate_wp data _ _ _ _ hwp)
        refine ⟨?_, ihwp⟩
        intro s hs
        rcases List.mem_cons.mp hs with rfl | hs2
        · obtain ⟨hoff1, hoff2⟩ := findBestMatch_bounds window wp data pos
            (min 17 (data.length - pos)) hwp (by omega)
          exact ⟨_, _, rfl, hoff1, hoff2,
            Nat.le_trans Nat.and_le_right (by norm_num)⟩
        · exact ihsyms s hs2
      · -- literal branch
        dsimp only
        obtain ⟨ihsyms, ihwp⟩ := ih (updFn window wp (data.getD pos 0))
          ((wp + 1) &&& 0xFFF) (pos + 1) (and_xFFF_lt _)
        refine ⟨?_, ihwp⟩
        intro s hs
        rcases List.mem_cons.mp hs with rfl | hs2
        · trivial
        · exact ihsyms s hs2

/-- All symbols the outer loop emits are well formed. -/
theorem lzOuter_refs (data : List Nat) :
    ∀ (fuel : Nat) (window : Nat → Nat) (wp pos : Nat), wp < 4096 →
      ∀ s ∈ (lzOuter data fuel window wp pos).flatten, refWellFormed s := by
  intro fuel
  induction fuel with
  | zero =>
    intro window wp pos _ s hs
    exact nomatch hs
  | succ fuel ih =>
    intro window wp pos hwp s hs
    rw [lzOuter] at hs
    dsimp only at hs
    by_cases hpos : pos < data.length
    · rw [if_pos hpos, List.flatten_cons] at hs
      obtain ⟨hblock, hwp2⟩ := lzBlockLoop_refs data 8 window wp pos hwp
      rcases List.mem_append.mp hs with hs2 | hs2
      · exact hblock s hs2
      · exact ih _ _ _ hwp2 s hs2
    · rw [if_neg hpos] at hs
      exact nomatch hs

theorem or_low_shiftRight {a x : Nat} (hx : x < 16) :
    ((a <<< 4) ||| x) >>> 4 = a := by
  apply Nat.eq_of_testBit_eq
  intro i
  rw [Nat.testBit_shiftRight, Nat.testBit_or, Nat.testBit_shiftLeft]
  have h1 : x.testBit (4 + i) = false := by
    apply Nat.testBit_lt_two_pow
    calc x < 16 := hx
      _ = 2 ^ 4 := by norm_num
      _ ≤ 2 ^ (4 + i) := Nat.pow_le_pow_right (by norm_num) (by omega)
  have h2 : 4 + i - 4 = i := by omega
  simp [h1, h2, show 4 ≤ 4 + i from by omega]

theorem bytes_reassemble {c : Nat} (hc : c < 65536) :
    (c &&& 0xFF) ||| ((c >>> 8) &&& 0xFF) <<< 8 = c := by
  apply Nat.eq_of_testBit_eq
  intro i
  rw [show (0xFF : Nat) = 2 ^ 8 - 1 from rfl]
  rw [Nat.testBit_or, Nat.testBit_shiftLeft, Nat.testBit_and, Nat.testBit_and,
    Nat.testBit_shiftRight, Nat.testBit_two_pow_sub_one,
    Nat.testBit_two_pow_sub_one]
  by_cases h8 : i < 8
  · simp [h8, show ¬(8 ≤ i) from by omega]
  · by_cases h16 : i < 16
    · simp [h8, show 8 ≤ i from by omega, show 8 + (i - 8) = i from by omega,
        show i - 8 < 8 from by omega]
    · have hbit : c.testBit i = false := by
        apply Nat.testBit_lt_two_pow
        calc c < 65536 := hc
          _ = 2 ^ 16 := by norm_num
          _ ≤ 2 ^ i := Nat.pow_le_pow_right (by norm_num) (by omega)
      simp [h8, hbit, show ¬(i - 8 < 8) from by omega,
        show 8 ≤ i from by omega, show 8 + (i - 8) = i from by omega]

/-- C8: the encoder never emits the end-of-stream sentinel: for every
input byte string, every back-reference symbol emitted by
`_compress_lz77` has a 16-bit code `C` (as reassembled little-endian by
the decoder from its two emitted bytes) with source index
`C >> 4 ≠ 0`. -/
theorem lz77_never_emits_eos (data : List Nat) (s : LZSym)
    (hs : s ∈ lz77Symbols data) (c : Nat) (hc : s = LZSym.ref c) :
    ((c &&& 0xFF) ||| ((c >>> 8) &&& 0xFF) <<< 8) >>> 4 ≠ 0 := by
  have hwf : refWellFormed s :=
    lzOuter_refs data data.length (fun _ => 0) 1 0 (by norm_num) s hs
  rw [hc] at hwf
  obtain ⟨off, l, hceq, hoff1, hoff2, hl⟩ := hwf
  have henc : c < 65536 := by
    rw [hceq]
    refine @Nat.or_lt_two_pow _ _ 16 ?_ ?_
    · rw [Nat.shiftLeft_eq]
      have h4 : (2 : Nat) ^ 4 = 16 := by norm_num
      have h16 : (2 : Nat) ^ 16 = 65536 := by norm_num
      rw [h4, h16]
      omega
    · have h16 : (2 : Nat) ^ 16 = 65536 := by norm_num
      rw [h16]
      omega
  rw [bytes_reassemble henc, hceq, or_low_shiftRight (by omega)]
  omega

/-- Witness for C8 at `data = [1, 1, 0]`, whose symbol stream contains
the back-reference `ref 16`. -/
theorem lz77_never_emits_eos_witness :
    LZSym.ref 16 ∈ lz77Symbols [1, 1, 0] ∧
    ((16 &&& 0xFF) ||| ((16 >>> 8) &&& 0xFF) <<< 8) >>> 4 ≠ 0 :=
  ⟨by decide, lz77_never_emits_eos [1, 1, 0] (LZSym.ref 16) (by decide) 16 rfl⟩


/-! ## SQSH chunk codec (spec section 4.2)

`zlib` is an external library, not repository code: the codec is
parametrised over the deflate compressor `zcomp` (for
`zlib.compress(data, level=9)`) and decompressor `zdecomp` (for
`zlib.decompress`, which can raise, hence `Option`). -/

/-- `HPIAssembler._compress_sqsh_chunk` (`hpi_assembler.py:192-223`):
build the 19-byte SQSH header and append the selected compression of
`data`; an unsupported mode raises (`none`).  The checksum is the sum
of the COMPRESSED payload bytes, masked to 32 bits. -/
def compressSqshChunk (mode : Nat) (zcomp : List Nat → List Nat)
    (data : List Nat) : Option (List Nat) :=
  let payload? : Option (List Nat) :=
    if mode = 0 then some data
    else if mode = 1 then some (compressLZ77 data)
    else if mode = 2 then some (zcomp data)
    else none
  match payload? with
  | none => none
  | some payload =>
    some ([83, 81, 83, 72] ++ [0, mode, 0]
      ++ u32le payload.length ++ u32le data.length
      ++ u32le (payload.sum &&& 0xFFFFFFFF) ++ payload)

/-- Per-chunk unobfuscation (`hpi_parser.py:231-234`):
`payload[i] = ((payload[i] - (i & 0xFF)) ^ (i & 0xFF)) & 0xFF`.
Python computes `b - k` as a possibly negative int; for `b, k < 256`
its low eight bits equal those of `b + 256 - k`, the bits above bit 7
(all ones when negative) are untouched by the XOR with `k < 256` and
removed by the final `& 0xFF`, so the embedding uses
`(((b + 256 - k) % 256) ^^^ k) &&& 0xFF`. -/
def sqshDecryptPayload (payload : List Nat) : List Nat :=
  (List.range payload.length).map fun i =>
    let k := i &&& 0xFF
    (((payload.getD i 0 + 256 - k) % 256) ^^^ k) &&& 0xFF

/-- `HPIParser._decompress_sqsh_chunk` (`hpi_parser.py:217-247`).
Note: the function reads bytes 7..15 of the header (sizes) but NEVER
reads bytes 15..19 (the stored checksum); no checksum verification is
performed. -/
def decompressSqshChunk (zdecomp : List Nat → Option (List Nat))
    (chunk : List Nat) : Option (List Nat) :=
  if chunk.length < 19 then none
  else if chunk.take 4 ≠ [83, 81, 83, 72] then none
  else
    let compressionType := chunk.getD 5 0
    let encryptionFlag := chunk.getD 6 0
    match readU32 chunk 7, readU32 chunk 11 with
    | some compressedSize, some uncompressedSize =>
      let payload0 := (chunk.drop 19).take compressedSize
      let payload := if encryptionFlag ≠ 0 then sqshDecryptPayload payload0
                     else payload0
      let result? : Option (List Nat) :=
        if compressionType = 0 then some payload
        else if compressionType = 1 then decompressLZ77 payload uncompressedSize
        else if compressionType = 2 then zdecomp payload
        else none
      match result? with
      | none => none
      | some result => some (result.take uncompressedSize)
    | _, _ => none

/-! ### SQSH round-trip fails for selector 1 (claim C2)

The encoder's match search extends candidate matches using window bytes
at and beyond the write cursor, which are stale (never written for this
stream position); the decoder instead re-reads its own fresh output
there (classic overlapped-copy semantics).  On `C = [1, 1, 0]` the
encoder emits a back-reference of length 2 at source index 1 (because
the stale window byte at index 2 is `0`, which happens to equal
`C[2]`), and the decoder expands it to `1, 1`, producing `[1, 1, 1]`. -/

/-- C2 fails on the code: encoding `[1, 1, 0]` as a SQSH chunk with
selector 1 (bespoke LZ77) and decoding it yields `[1, 1, 1] ≠ [1, 1, 0]`.
The deflate parameters are irrelevant to selector 1 and instantiated
with dummies. -/
theorem sqsh_roundtrip_mode1_fails :
    (compressSqshChunk 1 (fun d => d) [1, 1, 0]).bind
      (decompressSqshChunk (fun d => some d)) = some [1, 1, 1] ∧
    ([1, 1, 1] : List Nat) ≠ [1, 1, 0] := by
  constructor
  · decide
  · decide

/-! ### The decoder does not verify the checksum (claim C4) -/

/-- A syntactically valid stored-mode SQSH chunk whose stored checksum
field `0xDEADBEEF` does not match its payload sum `0x41`. -/
def badChecksumChunk : List Nat :=
  [83, 81, 83, 72] ++ [0, 0, 0] ++ u32le 1 ++ u32le 1
    ++ u32le 0xDEADBEEF ++ [0x41]

/-- C4 fails on the code: `_decompress_sqsh_chunk` decodes a chunk whose
stored checksum (bytes 15..19) disagrees with the payload sum, instead
of failing with a checksum-mismatch error -- the checksum field is never
read. -/
theorem sqsh_checksum_not_verified :
    readU32 badChecksumChunk 15 = some 0xDEADBEEF ∧
    (0xDEADBEEF : Nat) ≠ ([0x41] : List Nat).sum ∧
    decompressSqshChunk (fun _ => none) badChecksumChunk = some [0x41] := by
  refine ⟨by decide, by decide, by decide⟩


/-! ## Assembler (`HPIAssembler`, `hpi_assembler.py`)

State is the pair `(buffer, current_offset)`; `current_offset` starts
at `0x14` and buffer position `0` corresponds to file offset `0x14`,
mirroring `hpi_assembler.py:59-63`.  `struct.pack_into` backfills into
previously reserved space and is embedded as in-place list overwrite
(`setBytes`); every backfill in the source targets a region reserved
earlier, so the write is always in range. -/

/-- Assembler state: the (unencrypted) output buffer and
`current_offset` (`= 0x14 +` buffer length throughout). -/
structure AState where
  buffer : List Nat
  currentOffset : Nat

/-- `HPIAssembler._write_bytes` (`hpi_assembler.py:381-384`). -/
def writeBytes (st : AState) (data : List Nat) : AState :=
  { buffer := st.buffer ++ data, currentOffset := st.currentOffset + data.length }

/-- `HPIAssembler._reserve_space` (`hpi_assembler.py:386-389`). -/
def reserveSpace (st : AState) (size : Nat) : AState :=
  { buffer := st.buffer ++ List.replicate size 0,
    currentOffset := st.currentOffset + size }

/-- `HPIAssembler._write_u32` (`hpi_assembler.py:377-379`). -/
def writeU32 (st : AState) (v : Nat) : AState := writeBytes st (u32le v)

/-- Python `str.encode("ascii", errors="replace")` on a code-point
list: non-ASCII code points become `?` (63). -/
def encodeAsciiReplace (s : List Nat) : List Nat :=
  s.map (fun c => if c < 128 then c else 63)

/-- `HPIAssembler._write_cstring` (`hpi_assembler.py:370-375`): write
the ASCII-encoded name plus NUL terminator, returning the offset at
which it starts. -/
def writeCString (st : AState) (s : List Nat) : AState × Nat :=
  (writeBytes st (encodeAsciiReplace s ++ [0]), st.currentOffset)

/-- Overwrite `vals` into `l` starting at index `i`
(`struct.pack_into`). -/
def setBytes : List Nat → Nat → List Nat → List Nat
  | l, _, [] => l
  | l, i, v :: vs => setBytes (l.set i v) (i + 1) vs

/-- The chunk loop of `_write_compressed_file`
(`hpi_assembler.py:174-183`): compress and append each 64 KiB slice,
returning the list of compressed chunk sizes. -/
def writeChunks (mode : Nat) (zcomp : List Nat → List Nat)
    (data : List Nat) : List Nat → AState → Option (AState × List Nat)
  | [], st => some (st, [])
  | i :: rest, st =>
    match compressSqshChunk mode zcomp
        ((data.drop (i * CHUNK_SIZE)).take CHUNK_SIZE) with
    | none => none
    | some comp =>
      match writeChunks mode zcomp data rest (writeBytes st comp) with
      | none => none
      | some (st2, sizes) => some (st2, comp.length :: sizes)

/-- The chunk-table backfill of `_write_compressed_file`
(`hpi_assembler.py:185-188`): write size `i` at `base + i*4`. -/
def backfillSizes : List Nat → Nat → Nat → List Nat → List Nat
  | buf, _, _, [] => buf
  | buf, base, i, sz :: rest =>
    backfillSizes (setBytes buf (base + i * 4) (u32le sz)) base (i + 1) rest

/-- `HPIAssembler._write_compressed_file` (`hpi_assembler.py:164-190`):
reserve the chunk table (one u32 per 64 KiB slice), write the
compressed chunks, backfill the table, and return the chunk-table
offset. -/
def writeCompressedFile (mode : Nat) (zcomp : List Nat → List Nat)
    (data : List Nat) (st0 : AState) : Option (AState × Nat) :=
  let chunkCount := (data.length + CHUNK_SIZE - 1) / CHUNK_SIZE
  let chunkTableOffset := st0.currentOffset
  let st1 := reserveSpace st0 (chunkCount * 4)
  match writeChunks mode zcomp data (List.range chunkCount) st1 with
  | none => none
  | some (st2, sizes) =>
    some ({ st2 with
      buffer := backfillSizes st2.buffer (chunkTableOffset - 0x14) 0 sizes },
      chunkTableOffset)

/-! ### Filesystem model and `_scan_dir` -/

/-- A filesystem item: a file with content, or a directory with
children (in arbitrary on-disk enumeration order). -/
inductive FsTree where
  | file (name : List Nat) (data : List Nat)
  | dir (name : List Nat) (children : List FsTree)

def fsIsDir : FsTree → Bool
  | .file _ _ => false
  | .dir _ _ => true

def fsName : FsTree → List Nat
  | .file n _ => n
  | .dir n _ => n

mutual
/-- Node count of a tree, used as the recursion bound for `scanDir`
(the recursion depth never exceeds the node count). -/
def fsTreeSize : FsTree → Nat
  | .file _ _ => 1
  | .dir _ cs => 1 + fsTreeListSize cs

def fsTreeListSize : List FsTree → Nat
  | [] => 0
  | t :: ts => fsTreeSize t + fsTreeListSize ts
end

/-- The sort key of `_scan_dir` (`hpi_assembler.py:77`):
`(not p.is_dir(), p.name)` — directories (rank 0) before files
(rank 1), then name. -/
def fsRank (t : FsTree) : Nat := if fsIsDir t then 0 else 1

/-- Comparison corresponding to Python tuple `≤` on
`(not is_dir, name)` with code-point-lexicographic names. -/
def childLe (a b : FsTree) : Prop :=
  fsRank a < fsRank b ∨ (fsRank a = fsRank b ∧ fsName a ≤ fsName b)

instance : DecidableRel childLe := fun a b => by
  unfold childLe; infer_instance

instance : IsTotal FsTree childLe := by
  constructor
  intro a b
  unfold childLe
  rcases Nat.lt_trichotomy (fsRank a) (fsRank b) with h | h | h
  · exact Or.inl (Or.inl h)
  · rcases le_total (fsName a) (fsName b) with hn | hn
    · exact Or.inl (Or.inr ⟨h, hn⟩)
    · exact Or.inr (Or.inr ⟨h.symm, hn⟩)
  · exact Or.inr (Or.inl h)

instance : IsTrans FsTree childLe := by
  constructor
  intro a b c hab hbc
  unfold childLe at *
  rcases hab with h1 | ⟨h1, h1n⟩ <;> rcases hbc with h2 | ⟨h2, h2n⟩
  · exact Or.inl (by omega)
  · exact Or.inl (by omega)
  · exact Or.inl (by omega)
  · exact Or.inr ⟨by omega, le_trans h1n h2n⟩

/-- Scanned directory (`DirEntry` after `_scan_dir`): name, child
directories, and files as `(name, data)` pairs (the `full_path` and
`local_path` fields of the Python dataclass do not influence the
archive bytes and are omitted). -/
inductive ScanDir where
  | mk (name : List Nat) (subdirs : List ScanDir)
       (files : List (List Nat × List Nat))

def ScanDir.name : ScanDir → List Nat
  | .mk n _ _ => n

def ScanDir.subdirs : ScanDir → List ScanDir
  | .mk _ s _ => s

def ScanDir.files : ScanDir → List (List Nat × List Nat)
  | .mk _ _ f => f

/-- `HPIAssembler._scan_dir` (`hpi_assembler.py:72-96`): sort the
children by `(not is_dir, name)` (Python `sorted` is stable;
`insertionSort` is the same stable sort), then append directories to
`subdirs` (recursing) and files to `files` in that order.  The
recursion descends into a permuted list, which is not structural, so
the depth is bounded by an explicit counter; `scanDirF_fuel_irrel`
shows any counter `≥ fsTreeListSize children` gives the same result,
and `scanDir` instantiates it with `fsTreeListSize children`. -/
def scanDirF : Nat → List Nat → List FsTree → ScanDir
  | 0, name, _ => ScanDir.mk name [] []
  | fuel + 1, name, children =>
    let sorted := List.insertionSort childLe children
    let r := sorted.foldr (fun t acc =>
      match t with
      | FsTree.dir n cs => (scanDirF fuel n cs :: acc.1, acc.2)
      | FsTree.file n d => (acc.1, (n, d) :: acc.2)) ([], [])
    ScanDir.mk name r.1 r.2

/-- `_scan_dir` at the fuel that always suffices. -/
def scanDir (name : List Nat) (children : List FsTree) : ScanDir :=
  scanDirF (fsTreeListSize children) name children

/-! ### Payload pass (`_write_file_payloads`) and directory pass
(`_write_directory_tree`) -/

/-- Directory tree after the payload pass: files carry
`(name, chunk_table_offset, uncompressed_size)` as recorded on the
Python `FileEntry` (`hpi_assembler.py:157-159`). -/
inductive PayDir where
  | mk (name : List Nat) (subdirs : List PayDir)
       (files : List (List Nat × Nat × Nat))

def PayDir.name : PayDir → List Nat
  | .mk n _ _ => n

def PayDir.subdirs : PayDir → List PayDir
  | .mk _ s _ => s

def PayDir.files : PayDir → List (List Nat × Nat × Nat)
  | .mk _ _ f => f

/-- The `for file_entry in dir_entry.files` loop of
`_write_file_payloads` (`hpi_assembler.py:157-159`). -/
def payFilesLoop (mode : Nat) (zcomp : List Nat → List Nat) :
    List (List Nat × List Nat) → AState →
    Option (List (List Nat × Nat × Nat) × AState)
  | [], st => some ([], st)
  | (n, data) :: rest, st =>
    match writeCompressedFile mode zcomp data st with
    | none => none
    | some (st1, cto) =>
      match payFilesLoop mode zcomp rest st1 with
      | none => none
      | some (fs, st2) => some ((n, cto, data.length) :: fs, st2)

mutual
/-- `HPIAssembler._write_file_payloads` (`hpi_assembler.py:155-162`):
files of this directory first, then subdirectories recursively. -/
def writeFilePayloads (mode : Nat) (zcomp : List Nat → List Nat) :
    ScanDir → AState → Option (PayDir × AState)
  | ScanDir.mk name subdirs files, st =>
    match payFilesLoop mode zcomp files st with
    | none => none
    | some (pfiles, st1) =>
      match writeFilePayloadsList mode zcomp subdirs st1 with
      | none => none
      | some (psubs, st2) => some (PayDir.mk name psubs pfiles, st2)

def writeFilePayloadsList (mode : Nat) (zcomp : List Nat → List Nat) :
    List ScanDir → AState → Option (List PayDir × AState)
  | [], st => some ([], st)
  | d :: rest, st =>
    match writeFilePayloads mode zcomp d st with
    | none => none
    | some (pd, st1) =>
      match writeFilePayloadsList mode zcomp rest st1 with
      | none => none
      | some (pds, st2) => some (pd :: pds, st2)
end

/-- The entry-table backfill of `_write_directory_tree`
(`hpi_assembler.py:360-366`): for entry `i` write
`(name_offset : u32, info_offset : u32, flags : u8)` at `base + i*9`. -/
def backfillEntries : List Nat → Nat → Nat → List (Nat × Nat × Nat) → List Nat
  | buf, _, _, [] => buf
  | buf, base, i, (no, io, fl) :: rest =>
    backfillEntries (setBytes buf (base + i * 9) (u32le no ++ u32le io ++ [fl]))
      base (i + 1) rest

/-- The file loop of `_write_directory_tree`
(`hpi_assembler.py:351-358`): write each file's name string and 8-byte
info block, collecting `(name_offset, info_offset, 0x02)`. -/
def writeDirFiles : List (List Nat × Nat × Nat) → AState →
    AState × List (Nat × Nat × Nat)
  | [], st => (st, [])
  | (n, cto, size) :: rest, st =>
    let r1 := writeCString st n
    let infoOff := r1.1.currentOffset
    let st2 := writeU32 (writeU32 r1.1 cto) size
    let r2 := writeDirFiles rest st2
    (r2.1, (r1.2, infoOff, 0x02) :: r2.2)

mutual
/-- `HPIAssembler._write_directory_tree` (`hpi_assembler.py:324-368`).
In addition to the Python return value (the directory offset), the
embedding also returns the `entries_data` list that the source builds
locally and backfills, so that theorems can speak about the entry
table. -/
def writeDirectoryTree : PayDir → AState → AState × Nat × List (Nat × Nat × Nat)
  | PayDir.mk _ subdirs files, st =>
    let dirOffset := st.currentOffset
    let entryCount := subdirs.length + files.length
    let st1 := writeU32 (writeU32 st entryCount) 0
    let entryTableOffset := st1.currentOffset
    let st2 := reserveSpace st1 (entryCount * 9)
    let rsub := writeDirSubdirs subdirs st2
    let rfil := writeDirFiles files rsub.1
    let entries := rsub.2 ++ rfil.2
    let buf := backfillEntries rfil.1.buffer (entryTableOffset - 0x14) 0 entries
    ({ rfil.1 with buffer := buf }, dirOffset, entries)

/-- The subdirectory loop of `_write_directory_tree`
(`hpi_assembler.py:343-348`): write each subdirectory's name string and
recursive node, collecting `(name_offset, info_offset, 0x01)`. -/
def writeDirSubdirs : List PayDir → AState → AState × List (Nat × Nat × Nat)
  | [], st => (st, [])
  | d :: rest, st =>
    let r1 := writeCString st (PayDir.name d)
    let r2 := writeDirectoryTree d r1.1
    let r3 := writeDirSubdirs rest r2.1
    (r3.1, (r1.2, r2.2.1, 0x01) :: r3.2)
end

/-- `HPIAssembler.assemble` (`hpi_assembler.py:98-118`) together with
`_build_archive_data` and `_build_header`: scan, write payloads, write
the directory tree, build the 20-byte header, obfuscate the buffer and
concatenate.  A key outside `[0, 255]` would make
`header[12] = key` raise in Python (`none` here). -/
def assembleArchive (mode : Nat) (zcomp : List Nat → List Nat) (key : Nat)
    (rootChildren : List FsTree) : Option (List Nat) :=
  if key < 256 then
    let root := scanDir [] rootChildren
    let st0 : AState := ⟨[], 0x14⟩
    match writeFilePayloads mode zcomp root st0 with
    | none => none
    | some (payRoot, st1) =>
      let r := writeDirectoryTree payRoot st1
      let totalSize := 0x14 + r.1.buffer.length
      some (([72, 65, 80, 73] ++ u32le 0x00010000 ++ u32le totalSize
        ++ [key, 0, 0, 0] ++ u32le r.2.1)
        ++ encryptData r.1.buffer (transformKey key))
  else none


/-! ## Parser (`HPIParser`, `hpi_parser.py`)

`decrypted_data` is the byte list `buf`; `_to_buffer_offset` subtracts
`0x14` from file offsets.  Reads that `struct.unpack_from` or byte
indexing would fail on are `none`.  The recursive `_parse_directory`
has no depth bound in Python (a cyclic archive would overflow the
interpreter stack); the embedding takes an explicit recursion depth and
returns `none` when it is exhausted. -/

/-- A parsed archive entry (`HPIEntry`, `hpi_parser.py:46-58`; the
`full_path` field is the join of the names on the path and is omitted;
`data_offset` holds the entry's information offset). -/
inductive PEntry where
  | mk (name : List Nat) (dataOffset : Nat) (flags : Nat)
       (isDirectory : Bool) (isCompressed : Bool)
       (size : Option Nat) (chunkTableOffset : Option Nat)
       (children : List PEntry)

def PEntry.name : PEntry → List Nat
  | .mk n _ _ _ _ _ _ _ => n

def PEntry.dataOffset : PEntry → Nat
  | .mk _ d _ _ _ _ _ _ => d

def PEntry.flags : PEntry → Nat
  | .mk _ _ f _ _ _ _ _ => f

def PEntry.isDirectory : PEntry → Bool
  | .mk _ _ _ d _ _ _ _ => d

def PEntry.isCompressed : PEntry → Bool
  | .mk _ _ _ _ c _ _ _ => c

def PEntry.size : PEntry → Option Nat
  | .mk _ _ _ _ _ s _ _ => s

def PEntry.chunkTableOffset : PEntry → Option Nat
  | .mk _ _ _ _ _ _ c _ => c

def PEntry.children : PEntry → List PEntry
  | .mk _ _ _ _ _ _ _ c => c

/-- The index of the first NUL at or after `idx`, or `buf.length` when
there is none (`self.decrypted_data.find(b"\x00", idx)` with the `-1`
fallback, `hpi_parser.py:100-102`). -/
def cstringFind : List Nat → Option Nat
  | [] => none
  | b :: rest => if b = 0 then some 0 else (cstringFind rest).map (· + 1)

def cstringEnd (buf : List Nat) (idx : Nat) : Nat :=
  match cstringFind (buf.drop idx) with
  | some j => idx + j
  | none => buf.length

/-- Python `bytes.decode("ascii", errors="replace")`: bytes ≥ 128
become U+FFFD. -/
def decodeAsciiReplace (bs : List Nat) : List Nat :=
  bs.map (fun c => if c < 128 then c else 0xFFFD)

/-- `HPIParser._read_cstring` (`hpi_parser.py:98-103`). -/
def readCString (buf : List Nat) (fileOffset : Nat) : List Nat :=
  let idx := fileOffset - 0x14
  let e := cstringEnd buf idx
  decodeAsciiReplace ((buf.drop idx).take (e - idx))

/-- `HPIParser._read_u32` (`hpi_parser.py:94-96`). -/
def pReadU32 (buf : List Nat) (fileOffset : Nat) : Option Nat :=
  readU32 buf (fileOffset - 0x14)

/-- The `for i in range(entry_count)` loop of `_parse_directory`
(`hpi_parser.py:110-137`), parametrised over the parser used for child
directories.  `bo` is the node's buffer offset, `rem` the entries still
to read, `i` the current index. -/
def parseEntriesAux (buf : List Nat)
    (childParse : Nat → Option (List PEntry)) (bo : Nat) :
    Nat → Nat → Option (List PEntry)
  | 0, _ => some []
  | rem + 1, i =>
    let eo := bo + 8 + i * 9
    match readU32 buf eo, readU32 buf (eo + 4), buf[eo + 8]? with
    | some nameOff, some infoOff, some flags =>
      let name := readCString buf nameOff
      let isDir := flags &&& 0x01 ≠ 0
      let isCompressed := flags &&& 0x02 ≠ 0
      if isDir then
        match childParse infoOff with
        | none => none
        | some children =>
          match parseEntriesAux buf childParse bo rem (i + 1) with
          | none => none
          | some rest =>
            some (PEntry.mk name infoOff flags true isCompressed
              none none children :: rest)
      else
        match pReadU32 buf (infoOff + 4), pReadU32 buf infoOff with
        | some size, some cto =>
          match parseEntriesAux buf childParse bo rem (i + 1) with
          | none => none
          | some rest =>
            some (PEntry.mk name infoOff flags false isCompressed
              (some size) (some cto) [] :: rest)
        | _, _ => none
    | _, _, _ => none

/-- `HPIParser._parse_directory` (`hpi_parser.py:105-137`), with an
explicit recursion-depth bound. -/
def parseDirectory (buf : List Nat) : Nat → Nat → Option (List PEntry)
  | 0 => fun _ => none
  | depth + 1 => fun fileOffset =>
    let bo := fileOffset - 0x14
    match readU32 buf bo with
    | none => none
    | some entryCount =>
      parseEntriesAux buf (parseDirectory buf depth) bo entryCount 0

/-- `HPIParser.__init__` plus `parse` (`hpi_parser.py:74-80, 139-143`):
check the header, derive the transformed key, decrypt the post-header
range and parse from the root offset.  Returns the decrypted buffer
together with the root entries (extraction reads from that buffer). -/
def parseArchiveFull (depth : Nat) (raw : List Nat) :
    Option (List Nat × List PEntry) :=
  if raw.length < 20 then none
  else
    let key := raw.getD 12 0
    let tkey := transformKey key
    let buf := decryptData (raw.drop 0x14) tkey
    match readU32 raw 16 with
    | none => none
    | some dirOffset =>
      if raw.take 4 ≠ [72, 65, 80, 73] then none
      else
        match parseDirectory buf depth dirOffset with
        | none => none
        | some entries => some (buf, entries)

/-- `HPIParser._read_bytes` (`hpi_parser.py:213-215`): a Python slice,
which clips at the end of the buffer. -/
def readBytesAt (buf : List Nat) (fileOffset length : Nat) : List Nat :=
  (buf.drop (fileOffset - 0x14)).take length

/-- The chunk-size-table read of `extract_entry`
(`hpi_parser.py:174-176`): `chunk_count` u32 reads starting at the
chunk-table offset. -/
def extractChunkSizes (buf : List Nat) (cto : Nat) : Nat → Nat → Option (List Nat)
  | _, 0 => some []
  | i, rem + 1 =>
    match pReadU32 buf (cto + i * 4) with
    | none => none
    | some sz =>
      match extractChunkSizes buf cto (i + 1) rem with
      | none => none
      | some rest => some (sz :: rest)

/-- The chunk loop of `extract_entry` (`hpi_parser.py:183-194`). -/
def extractLoop (zdecomp : List Nat → Option (List Nat)) (buf : List Nat) :
    List Nat → Nat → Nat → List Nat → Option (List Nat)
  | [], _, _, data => some data
  | csz :: rest, current, remaining, data =>
    match decompressSqshChunk zdecomp (readBytesAt buf current csz) with
    | none => none
    | some chunkData =>
      if remaining < chunkData.length then
        -- data.extend(chunk_data[:remaining]); remaining = 0; then break
        some (data ++ chunkData.take remaining)
      else
        let data2 := data ++ chunkData
        let remaining2 := remaining - chunkData.length
        if remaining2 = 0 then some data2
        else extractLoop zdecomp buf rest (current + csz) remaining2 data2

/-- `HPIParser.extract_entry` (`hpi_parser.py:164-196`). -/
def extractEntry (zdecomp : List Nat → Option (List Nat)) (buf : List Nat)
    (entry : PEntry) : Option (List Nat) :=
  if entry.isDirectory then none
  else
    match entry.size, entry.chunkTableOffset with
    | some totalSize, some cto =>
      let chunkCount := (totalSize + CHUNK_SIZE - 1) / CHUNK_SIZE
      match extractChunkSizes buf cto 0 chunkCount with
      | none => none
      | some chunkSizes =>
        match extractLoop zdecomp buf chunkSizes (cto + 4 * chunkCount)
            totalSize [] with
        | none => none
        | some data => some (data.take totalSize)
    | _, _ => none


/-! ### Archive round-trip fails for compression mode 1 (claim C1)

The tree `{f ↦ [1, 1, 0]}` assembled with mode 1 (bespoke LZ77) and
key 0 parses fine, but extracting the single file yields `[1, 1, 1]`:
the LZ77 encoder bug exhibited for claim C2 corrupts the archived
payload.  The intermediate literals below are the assembled archive,
its decrypted buffer, and the parsed file entry. -/

/-- The archive produced by `assemble` on `{f ↦ [1, 1, 0]}`, mode 1,
key 0. -/
def c1Archive : List Nat :=
  [72, 65, 80, 73, 0, 0, 1, 0, 74, 0, 0, 0, 0, 0, 0, 0, 47, 0, 0, 0] ++
  [23, 0, 0, 0, 83, 81, 83, 72, 0, 1, 0, 4, 0, 0, 0, 3, 0, 0, 0,
   19, 0, 0, 0, 2, 1, 16, 0, 1, 0, 0, 0, 0, 0, 0, 0, 64, 0, 0, 0,
   66, 0, 0, 0, 2, 102, 0, 20, 0, 0, 0, 3, 0, 0, 0]

/-- Its decrypted (= post-header, key 0) buffer. -/
def c1Buffer : List Nat := c1Archive.drop 20

/-- The single file entry the parser returns for it. -/
def c1Entry : PEntry := PEntry.mk [102] 66 2 false true (some 3) (some 20) []

/-- C1 fails on the code: assembling the tree `{"f" ↦ [1, 1, 0]}` with
compression mode 1 and key 0, then parsing the archive and decoding its
single file entry, yields `[1, 1, 1]`, not the original bytes.  (The
deflate parameters are irrelevant to mode 1 and instantiated with
dummies.) -/
theorem archive_roundtrip_fails_mode1 :
    ((assembleArchive 1 (fun d => d) 0 [FsTree.file [102] [1, 1, 0]]).bind
      (fun raw => (parseArchiveFull 2 raw).bind (fun pr =>
        match pr.2 with
        | [e] => extractEntry (fun d => some d) pr.1 e
        | _ => none))) = some [1, 1, 1] ∧
    ([1, 1, 1] : List Nat) ≠ [1, 1, 0] := by
  refine ⟨?_, by decide⟩
  have h1 : assembleArchive 1 (fun d => d) 0 [FsTree.file [102] [1, 1, 0]]
      = some c1Archive := by decide
  have h2 : parseArchiveFull 2 c1Archive = some (c1Buffer, [c1Entry]) := rfl
  have h3 : extractEntry (fun d => some d) c1Buffer c1Entry
      = some [1, 1, 1] := by decide
  rw [h1]
  simp only [Option.bind]
  rw [h2]
  simp only [Option.bind]
  exact h3


/-! ### Chunk-size table cardinality (claim C6) -/

/-- For a supported mode the SQSH compressor always succeeds. -/
theorem compressSqshChunk_some (mode : Nat) (hmode : mode < 3)
    (zcomp : List Nat → List Nat) (d : List Nat) :
    ∃ p, compressSqshChunk mode zcomp d = some p := by
  have h : mode = 0 ∨ mode = 1 ∨ mode = 2 := by omega
  rcases h with rfl | rfl | rfl <;>
    simp [compressSqshChunk]

/-- The chunk loop always succeeds for a supported mode, producing one
recorded size per loop index. -/
theorem writeChunks_length (mode : Nat) (hmode : mode < 3)
    (zcomp : List Nat → List Nat) (data : List Nat) :
    ∀ (l : List Nat) (st : AState),
      ∃ st2 sizes, writeChunks mode zcomp data l st = some (st2, sizes) ∧
        sizes.length = l.length := by
  intro l
  induction l with
  | nil => intro st; exact ⟨st, [], rfl, rfl⟩
  | cons i rest ih =>
    intro st
    obtain ⟨p, hp⟩ := compressSqshChunk_some mode hmode zcomp
      ((data.drop (i * CHUNK_SIZE)).take CHUNK_SIZE)
    obtain ⟨st2, sizes, hrec, hlen⟩ := ih (writeBytes st p)
    refine ⟨st2, p.length :: sizes, ?_, by simp [hlen]⟩
    rw [writeChunks, hp]
    dsimp only
    rw [hrec]

/-- The parser-side chunk-size read yields exactly as many entries as
requested. -/
theorem extractChunkSizes_length (buf : List Nat) (cto : Nat) :
    ∀ (rem i : Nat) (szs : List Nat),
      extractChunkSizes buf cto i rem = some szs → szs.length = rem := by
  intro rem
  induction rem with
  | zero =>
    intro i szs h
    rw [extractChunkSizes] at h
    cases h
    rfl
  | succ rem ih =>
    intro i szs h
    rw [extractChunkSizes] at h
    rcases h1 : pReadU32 buf (cto + i * 4) with _ | sz
    · rw [h1] at h; cases h
    · rw [h1] at h
      rcases h2 : extractChunkSizes buf cto (i + 1) rem with _ | rest
      · rw [h2] at h; cases h
      · rw [h2] at h
        cases h
        simp [ih (i + 1) rest h2]

/-- C6: for every file body `data` and supported compression mode, the
assembler's chunk loop records exactly `⌈data.length / 65536⌉`
chunk sizes for the table (`_write_compressed_file` reserves and
backfills one u32 per recorded size), that count is `0` for a zero-byte
file, and the parser's `extract_entry` reads back exactly that many
table entries for an entry of that uncompressed size. -/
theorem chunk_table_entry_count (mode : Nat) (hmode : mode < 3)
    (zcomp : List Nat → List Nat) (data : List Nat) (st : AState) :
    (∃ st2 sizes,
      writeChunks mode zcomp data
        (List.range ((data.length + CHUNK_SIZE - 1) / CHUNK_SIZE)) st
        = some (st2, sizes) ∧
      sizes.length = (data.length + CHUNK_SIZE - 1) / CHUNK_SIZE) ∧
    (data.length = 0 → (data.length + CHUNK_SIZE - 1) / CHUNK_SIZE = 0) ∧
    (∀ (buf : List Nat) (cto : Nat) (szs : List Nat),
      extractChunkSizes buf cto 0 ((data.length + CHUNK_SIZE - 1) / CHUNK_SIZE)
        = some szs →
      szs.length = (data.length + CHUNK_SIZE - 1) / CHUNK_SIZE) := by
  refine ⟨?_, ?_, ?_⟩
  · obtain ⟨st2, sizes, h, hlen⟩ := writeChunks_length mode hmode zcomp data
      (List.range ((data.length + CHUNK_SIZE - 1) / CHUNK_SIZE)) st
    exact ⟨st2, sizes, h, by simpa using hlen⟩
  · intro h0
    rw [h0]
    decide
  · intro buf cto szs h
    exact extractChunkSizes_length buf cto _ 0 szs h

/-- Witness for C6 at `mode = 0`, `data = [5]` (one chunk). -/
theorem chunk_table_entry_count_witness :
    (∃ st2 sizes,
      writeChunks 0 (fun d => d) [5]
        (List.range ((([5] : List Nat).length + CHUNK_SIZE - 1) / CHUNK_SIZE))
        ⟨[], 0x14⟩
        = some (st2, sizes) ∧
      sizes.length = (([5] : List Nat).length + CHUNK_SIZE - 1) / CHUNK_SIZE) ∧
    (([5] : List Nat).length = 0 →
      (([5] : List Nat).length + CHUNK_SIZE - 1) / CHUNK_SIZE = 0) ∧
    (∀ (buf : List Nat) (cto : Nat) (szs : List Nat),
      extractChunkSizes buf cto 0
          ((([5] : List Nat).length + CHUNK_SIZE - 1) / CHUNK_SIZE)
        = some szs →
      szs.length = (([5] : List Nat).length + CHUNK_SIZE - 1) / CHUNK_SIZE) :=
  chunk_table_entry_count 0 (by norm_num) (fun d => d) [5] ⟨[], 0x14⟩


/-! ### Canonical write order and flags (claim C7) -/

/-- All-levels canonical ordering of a scanned tree: at every node the
subdirectory names and the file names are each sorted
(code-point-lexicographically). -/
inductive ScanSorted : ScanDir → Prop where
  | mk : ∀ (name : List Nat) (subdirs : List ScanDir)
      (files : List (List Nat × List Nat)),
      List.Sorted (· ≤ ·) (subdirs.map ScanDir.name) →
      List.Sorted (· ≤ ·) (files.map Prod.fst) →
      (∀ s ∈ subdirs, ScanSorted s) →
      ScanSorted (ScanDir.mk name subdirs files)

/-- The same ordering property on the payload-annotated tree actually
handed to `_write_directory_tree`. -/
inductive PaySorted : PayDir → Prop where
  | mk : ∀ (name : List Nat) (subdirs : List PayDir)
      (files : List (List Nat × Nat × Nat)),
      List.Sorted (· ≤ ·) (subdirs.map PayDir.name) →
      List.Sorted (· ≤ ·) (files.map Prod.fst) →
      (∀ s ∈ subdirs, PaySorted s) →
      PaySorted (PayDir.mk name subdirs files)

theorem scanDirF_name (fuel : Nat) (n : List Nat) (cs : List FsTree) :
    ScanDir.name (scanDirF fuel n cs) = n := by
  cases fuel <;> rfl

/-- Shape of the scan fold: the produced subdirectory names are the
names of the directory items in order, the file names those of the file
items, and every produced subdirectory is a recursive scan of a
directory item. -/
theorem scanFold_spec (fuel : Nat) :
    ∀ (items : List FsTree),
      ((items.foldr (fun t acc =>
        match t with
        | FsTree.dir n cs => (scanDirF fuel n cs :: acc.1, acc.2)
        | FsTree.file n d => (acc.1, (n, d) :: acc.2)) ([], [])).1.map
          ScanDir.name = (items.filter fsIsDir).map fsName) ∧
      ((items.foldr (fun t acc =>
        match t with
        | FsTree.dir n cs => (scanDirF fuel n cs :: acc.1, acc.2)
        | FsTree.file n d => (acc.1, (n, d) :: acc.2)) ([], [])).2.map
          Prod.fst = (items.filter (fun t => !fsIsDir t)).map fsName) ∧
      (∀ x ∈ (items.foldr (fun t acc =>
        match t with
        | FsTree.dir n cs => (scanDirF fuel n cs :: acc.1, acc.2)
        | FsTree.file n d => (acc.1, (n, d) :: acc.2)) ([], [])).1,
        ∃ n cs, x = scanDirF fuel n cs) := by
  intro items
  induction items with
  | nil => exact ⟨rfl, rfl, fun x hx => nomatch hx⟩
  | cons t rest ih =>
    obtain ⟨ih1, ih2, ih3⟩ := ih
    cases t with
    | dir n cs =>
      refine ⟨?_, ?_, ?_⟩
      · simp only [List.foldr_cons, List.map_cons, ih1]
        simp [fsIsDir, fsName, scanDirF_name]
      · simp only [List.foldr_cons, ih2]
        simp [fsIsDir]
      · intro x hx
        simp only [List.foldr_cons] at hx
        rcases List.mem_cons.mp hx with rfl | hx2
        · exact ⟨n, cs, rfl⟩
        · exact ih3 x hx2
    | file n d =>
      refine ⟨?_, ?_, ?_⟩
      · simp only [List.foldr_cons, ih1]
        simp [fsIsDir]
      · simp only [List.foldr_cons, List.map_cons, ih2]
        simp [fsIsDir, fsName]
      · intro x hx
        simp only [List.foldr_cons] at hx
        exact ih3 x hx

/-- A `childLe`-sorted list restricted to its directory items has
sorted names (directories all have rank 0). -/
theorem sorted_filter_names (items : List FsTree) (b : Bool)
    (hs : List.Sorted childLe items) :
    List.Sorted (· ≤ ·) ((items.filter (fun t => fsIsDir t == b)).map fsName) := by
  rw [List.Sorted, List.pairwise_map]
  refine List.Pairwise.imp_of_mem ?_
    (List.Pairwise.sublist (List.filter_sublist items) hs)
  intro a c ha hc hle
  have hA : fsIsDir a = b := by
    have := List.of_mem_filter ha
    simpa using this
  have hC : fsIsDir c = b := by
    have := List.of_mem_filter hc
    simpa using this
  rcases hle with h | ⟨_, h⟩
  · exfalso
    unfold fsRank at h
    rw [hA, hC] at h
    cases b <;> simp at h
  · exact h

/-- Every scanned node has canonically ordered children, for any
recursion bound (claim C7, ordering half). -/
theorem scanDirF_sorted :
    ∀ (fuel : Nat) (name : List Nat) (children : List FsTree),
      ScanSorted (scanDirF fuel name children) := by
  intro fuel
  induction fuel with
  | zero =>
    intro name children
    exact ScanSorted.mk name [] [] List.sorted_nil List.sorted_nil
      (fun s hs => nomatch hs)
  | succ fuel ih =>
    intro name children
    rw [scanDirF]
    have hsorted : List.Sorted childLe (List.insertionSort childLe children) :=
      List.sorted_insertionSort childLe children
    obtain ⟨h1, h2, h3⟩ := scanFold_spec fuel
      (List.insertionSort childLe children)
    refine ScanSorted.mk name _ _ ?_ ?_ ?_
    · rw [h1]
      have := sorted_filter_names (List.insertionSort childLe children)
        true hsorted
      simpa using this
    · rw [h2]
      have := sorted_filter_names (List.insertionSort childLe children)
        false hsorted
      simpa using this
    · intro s hs
      obtain ⟨n, cs, rfl⟩ := h3 s hs
      exact ih n cs

/-- `payFilesLoop` preserves the file names in order. -/
theorem payFilesLoop_names (mode : Nat) (zcomp : List Nat → List Nat) :
    ∀ (files : List (List Nat × List Nat)) (st : AState)
      (pf : List (List Nat × Nat × Nat)) (st2 : AState),
      payFilesLoop mode zcomp files st = some (pf, st2) →
      pf.map Prod.fst = files.map Prod.fst := by
  intro files
  induction files with
  | nil =>
    intro st pf st2 h
    rw [payFilesLoop] at h
    cases h
    rfl
  | cons f rest ih =>
    intro st pf st2 h
    obtain ⟨n, data⟩ := f
    rw [payFilesLoop] at h
    rcases h1 : writeCompressedFile mode zcomp data st with _ | r1
    · rw [h1] at h; cases h
    · rw [h1] at h
      obtain ⟨st1, cto⟩ := r1
      dsimp only at h
      rcases h2 : payFilesLoop mode zcomp rest st1 with _ | r2
      · rw [h2] at h; cases h
      · rw [h2] at h
        obtain ⟨fs, st3⟩ := r2
        dsimp only at h
        cases h
        simp [ih st1 fs _ h2]

mutual
/-- The payload pass preserves the node name and the canonical
ordering. -/
theorem writeFilePayloads_sorted (mode : Nat) (zcomp : List Nat → List Nat) :
    ∀ (s : ScanDir) (st : AState) (p : PayDir) (st2 : AState),
      writeFilePayloads mode zcomp s st = some (p, st2) → ScanSorted s →
      PayDir.name p = ScanDir.name s ∧ PaySorted p
  | ScanDir.mk nm subdirs files, st, p, st2, h, hsorted => by
    rw [writeFilePayloads] at h
    rcases h1 : payFilesLoop mode zcomp files st with _ | r1
    · rw [h1] at h; cases h
    · rw [h1] at h
      obtain ⟨pfiles, st1⟩ := r1
      dsimp only at h
      rcases h2 : writeFilePayloadsList mode zcomp subdirs st1 with _ | r2
      · rw [h2] at h; cases h
      · rw [h2] at h
        obtain ⟨psubs, st3⟩ := r2
        dsimp only at h
        cases h
        cases hsorted with
        | mk _ _ _ hsubs hfiles hrec =>
          obtain ⟨hnames, hall⟩ := writeFilePayloadsList_sorted mode zcomp
            subdirs st1 psubs _ h2 hrec
          refine ⟨rfl, PaySorted.mk nm psubs pfiles ?_ ?_ hall⟩
          · rw [hnames]
            exact hsubs
          · rw [payFilesLoop_names mode zcomp files st pfiles _ h1]
            exact hfiles

theorem writeFilePayloadsList_sorted (mode : Nat) (zcomp : List Nat → List Nat) :
    ∀ (l : List ScanDir) (st : AState) (pl : List PayDir) (st2 : AState),
      writeFilePayloadsList mode zcomp l st = some (pl, st2) →
      (∀ x ∈ l, ScanSorted x) →
      pl.map PayDir.name = l.map ScanDir.name ∧ ∀ y ∈ pl, PaySorted y
  | [], st, pl, st2, h, _ => by
    rw [writeFilePayloadsList] at h
    cases h
    exact ⟨rfl, fun y hy => nomatch hy⟩
  | d :: rest, st, pl, st2, h, hall => by
    rw [writeFilePayloadsList] at h
    rcases h1 : writeFilePayloads mode zcomp d st with _ | r1
    · rw [h1] at h; cases h
    · rw [h1] at h
      obtain ⟨pd, st1⟩ := r1
      dsimp only at h
      rcases h2 : writeFilePayloadsList mode zcomp rest st1 with _ | r2
      · rw [h2] at h; cases h
      · rw [h2] at h
        obtain ⟨pds, st3⟩ := r2
        dsimp only at h
        cases h
        obtain ⟨hn, hp⟩ := writeFilePayloads_sorted mode zcomp d st pd _ h1
          (hall d (List.mem_cons_self d rest))
        obtain ⟨hns, hps⟩ := writeFilePayloadsList_sorted mode zcomp rest st1
          pds _ h2 (fun x hx => hall x (List.mem_cons_of_mem d hx))
        refine ⟨?_, ?_⟩
        · simp [hn, hns]
        · intro y hy
          rcases List.mem_cons.mp hy with rfl | hy2
          · exact hp
          · exact hps y hy2
end

/-- The file loop emits flag byte `0x02` for every file entry. -/
theorem writeDirFiles_flags :
    ∀ (files : List (List Nat × Nat × Nat)) (st : AState),
      (writeDirFiles files st).2.map (fun e => e.2.2) =
        List.replicate files.length 0x02 := by
  intro files
  induction files with
  | nil => intro st; rfl
  | cons f rest ih =>
    intro st
    obtain ⟨n, cto, sz⟩ := f
    rw [writeDirFiles]
    simp only [List.map_cons, List.length_cons, List.replicate_succ]
    rw [ih]

/-- The subdirectory loop emits flag byte `0x01` for every directory
entry. -/
theorem writeDirSubdirs_flags :
    ∀ (subs : List PayDir) (st : AState),
      (writeDirSubdirs subs st).2.map (fun e => e.2.2) =
        List.replicate subs.length 0x01 := by
  intro subs
  induction subs with
  | nil => intro st; rfl
  | cons d rest ih =>
    intro st
    rw [writeDirSubdirs]
    simp only [List.map_cons, List.length_cons, List.replicate_succ]
    rw [ih]

/-- The entry table of every emitted node: all subdirectories first
(flags `0x01`), then all files (flags `0x02`). -/
theorem writeDirectoryTree_flags (d : PayDir) (st : AState) :
    (writeDirectoryTree d st).2.2.map (fun e => e.2.2) =
      List.replicate (PayDir.subdirs d).length 0x01 ++
      List.replicate (PayDir.files d).length 0x02 := by
  obtain ⟨nm, subdirs, files⟩ := d
  rw [writeDirectoryTree]
  dsimp only [PayDir.subdirs, PayDir.files]
  rw [List.map_append, writeDirSubdirs_flags, writeDirFiles_flags]

/-- C7: for every filesystem directory the assembler scans (any
compression mode and key), the tree handed to `_write_directory_tree`
is canonically ordered at every node — subdirectory names sorted, file
names sorted — and the entry table written for every node lists all
subdirectories first with flags byte exactly `0x01`, then all files
with flags byte exactly `0x02`.  (`_write_directory_tree` itself does
not depend on the compression mode; the mode enters only through the
payload pass hypothesis.) -/
theorem canonical_write_order_and_flags
    (nm : List Nat) (children : List FsTree) (mode : Nat)
    (zcomp : List Nat → List Nat) (st st1 : AState) (p : PayDir)
    (hpay : writeFilePayloads mode zcomp (scanDir nm children) st
      = some (p, st1)) :
    PaySorted p ∧
    ∀ (d : PayDir) (st2 : AState),
      (writeDirectoryTree d st2).2.2.map (fun e => e.2.2) =
        List.replicate (PayDir.subdirs d).length 0x01 ++
        List.replicate (PayDir.files d).length 0x02 := by
  constructor
  · exact (writeFilePayloads_sorted mode zcomp (scanDir nm children) st p st1
      hpay (scanDirF_sorted _ nm children)).2
  · exact writeDirectoryTree_flags


/-- Witness for C7 at the tree `{a ↦ [1]}`, mode 0, key-independent. -/
theorem canonical_write_order_and_flags_witness :
    PaySorted (PayDir.mk [] [] [([97], 20, 1)]) ∧
    ∀ (d : PayDir) (st2 : AState),
      (writeDirectoryTree d st2).2.2.map (fun e => e.2.2) =
        List.replicate (PayDir.subdirs d).length 0x01 ++
        List.replicate (PayDir.files d).length 0x02 :=
  canonical_write_order_and_flags [] [FsTree.file [97] [1]] 0 (fun d => d)
    ⟨[], 0x14⟩
    ⟨[20, 0, 0, 0, 83, 81, 83, 72, 0, 0, 0, 1, 0, 0, 0, 1, 0, 0, 0, 1, 0, 0, 0, 1],
      44⟩
    (PayDir.mk [] [] [([97], 20, 1)]) rfl


/-! ### Buffer primitives: preservation and read-back lemmas
(groundwork for claim C10) -/

theorem setBytes_length : ∀ (vs : List Nat) (l : List Nat) (i : Nat),
    (setBytes l i vs).length = l.length := by
  intro vs
  induction vs with
  | nil => intro l i; rfl
  | cons v vs ih =>
    intro l i
    rw [setBytes, ih]
    simp

theorem setBytes_getElem?_outside : ∀ (vs : List Nat) (l : List Nat) (i j : Nat),
    (j < i ∨ i + vs.length ≤ j) → (setBytes l i vs)[j]? = l[j]? := by
  intro vs
  induction vs with
  | nil => intro l i j _; rfl
  | cons v vs ih =>
    intro l i j hj
    simp only [List.length_cons] at hj
    rw [setBytes, ih (l.set i v) (i + 1) j (by omega)]
    apply List.getElem?_set_ne
    omega

theorem setBytes_getElem?_inside : ∀ (vs : List Nat) (l : List Nat) (i k : Nat),
    k < vs.length → i + vs.length ≤ l.length →
    (setBytes l i vs)[i + k]? = vs[k]? := by
  intro vs
  induction vs with
  | nil => intro l i k hk _; cases hk
  | cons v vs ih =>
    intro l i k hk hle
    rw [setBytes]
    simp only [List.length_cons] at hk hle
    cases k with
    | zero =>
      rw [setBytes_getElem?_outside vs (l.set i v) (i + 1) (i + 0) (by omega)]
      simp only [Nat.add_zero]
      rw [List.getElem?_set_self (by omega)]
      simp
    | succ k =>
      have := ih (l.set i v) (i + 1) k (by omega) (by simp; omega)
      rw [show i + (k + 1) = i + 1 + k from by omega, this]
      simp

/-- `readU32` over four positions holding `u32le v` recovers
`v % 2^32`. -/
theorem readU32_of_u32le (F : List Nat) (i v : Nat)
    (h : ∀ k, k < 4 → F[i + k]? = (u32le v)[k]?) :
    readU32 F i = some (v % 2 ^ 32) := by
  have h0 := h 0 (by norm_num)
  have h1 := h 1 (by norm_num)
  have h2 := h 2 (by norm_num)
  have h3 := h 3 (by norm_num)
  simp only [Nat.add_zero] at h0
  unfold readU32
  rw [h0, h1, h2, h3]
  unfold u32le
  simp only [List.getElem?_cons_zero, List.getElem?_cons_succ]
  have hlt : v % 2 ^ 32 < 2 ^ 32 := Nat.mod_lt _ (by norm_num)
  congr 1
  omega

theorem u32le_length (v : Nat) : (u32le v).length = 4 := rfl

theorem u32le_bytes_lt (v : Nat) : ∀ b ∈ u32le v, b < 256 := by
  intro b hb
  unfold u32le at hb
  simp only [List.mem_cons, List.not_mem_nil, or_false] at hb
  rcases hb with rfl | rfl | rfl | rfl <;> exact Nat.mod_lt _ (by norm_num)

/-- Appending preserves reads below the original length. -/
theorem getElem?_append_of_lt {l t : List Nat} {i : Nat} (h : i < l.length) :
    (l ++ t)[i]? = l[i]? := by
  rw [List.getElem?_append, if_pos h]

/-- Reads inside the appended segment. -/
theorem getElem?_append_right_of_le {l t : List Nat} {k : Nat} :
    (l ++ t)[l.length + k]? = t[k]? := by
  rw [List.getElem?_append, if_neg (by omega)]
  congr 1
  omega


/-! ### Name strings: write/read round trip (groundwork for C10) -/

/-- Names that survive the ASCII encode/decode and NUL scan intact:
non-NUL ASCII code points. -/
def GoodName (n : List Nat) : Prop := ∀ b ∈ n, 1 ≤ b ∧ b < 128

/-- Reading a segment of `l` at `idx` recovers `r` when the pointwise
reads agree. -/
theorem segment_take (l : List Nat) (idx n : Nat) (r : List Nat)
    (hlen : r.length = n) (h : ∀ k, k < n → l[idx + k]? = r[k]?) :
    (l.drop idx).take n = r := by
  apply List.ext_getElem?
  intro k
  by_cases hk : k < n
  · rw [List.getElem?_take, if_pos hk, List.getElem?_drop, h k hk]
  · rw [List.getElem?_eq_none (le_trans (List.length_take_le _ _) (by omega)),
      List.getElem?_eq_none (by omega)]

/-- `cstringFind` finds the NUL terminator of a NUL-free string. -/
theorem cstringFind_zero_after (pre : List Nat) :
    ∀ (l : List Nat), (∀ b ∈ pre, b ≠ 0) →
      l.take (pre.length + 1) = pre ++ [0] →
      cstringFind l = some pre.length := by
  induction pre with
  | nil =>
    intro l _ htake
    cases l with
    | nil => simp at htake
    | cons a l2 =>
      simp only [List.length_nil, List.take_succ_cons, List.take_zero,
        List.nil_append, List.cons.injEq] at htake
      rw [cstringFind, if_pos htake.1]
      rfl
  | cons x pre ih =>
    intro l hnz htake
    cases l with
    | nil => simp at htake
    | cons a l2 =>
      simp only [List.length_cons, List.take_succ_cons, List.cons_append,
        List.cons.injEq] at htake
      obtain ⟨rfl, htake2⟩ := htake
      have hx : ¬(a = 0) := hnz a (List.mem_cons_self a pre)
      rw [cstringFind, if_neg hx,
        ih l2 (fun b hb => hnz b (List.mem_cons_of_mem a hb)) htake2]
      rfl

/-- If the buffer holds `name ++ [0]` at `idx` (with `name` a good
name), `_read_cstring` at the corresponding file offset recovers
`name`. -/
theorem readCString_correct (F : List Nat) (idx : Nat) (name : List Nat)
    (hgood : GoodName name)
    (h : ∀ k, k < name.length + 1 → F[idx + k]? = (name ++ [0])[k]?) :
    readCString F (idx + 0x14) = name := by
  have htake : (F.drop idx).take (name.length + 1) = name ++ [0] :=
    segment_take F idx (name.length + 1) (name ++ [0]) (by simp) h
  have hfind : cstringFind (F.drop idx) = some name.length :=
    cstringFind_zero_after name (F.drop idx)
      (fun b hb => by have := hgood b hb; omega) htake
  unfold readCString cstringEnd
  dsimp only
  rw [show idx + 0x14 - 0x14 = idx from by omega, hfind]
  dsimp only
  have htakeName : (F.drop idx).take name.length = name := by
    have := congrArg (fun l => List.take name.length l) htake
    simpa [List.take_take, List.take_append_of_le_length] using this
  rw [show idx + name.length - idx = name.length from by omega, htakeName]
  unfold decodeAsciiReplace
  rw [show name.map (fun c => if c < 128 then c else 0xFFFD) = name.map id from ?_,
    List.map_id]
  apply List.map_congr_left
  intro c hc
  have := hgood c hc
  simp [if_pos this.2]


/-! ### Structure correspondence between written and parsed trees
(groundwork for C10) -/

/-- Assembler-state invariant: the write cursor tracks the buffer
(`current_offset` starts at `0x14` with an empty buffer and every
writer advances both together). -/
def StOk (st : AState) : Prop := st.currentOffset = 0x14 + st.buffer.length

/-- `F` agrees with `buf` on positions `[lo, hi)`. -/
def AgreeRange (lo hi : Nat) (buf F : List Nat) : Prop :=
  ∀ i, lo ≤ i → i < hi → F[i]? = buf[i]?

theorem AgreeRange.restrict {lo hi lo2 hi2 : Nat} {buf F : List Nat}
    (h : AgreeRange lo hi buf F) (h1 : lo ≤ lo2) (h2 : hi2 ≤ hi) :
    AgreeRange lo2 hi2 buf F :=
  fun i hi1 hi2' => h i (by omega) (by omega)

/-- Transfer agreement through an intermediate buffer that matches on
the sub-range. -/
theorem AgreeRange.trans_sub {lo hi : Nat} {b1 b2 F : List Nat}
    (hF : AgreeRange lo hi b2 F) (h12 : AgreeRange lo hi b1 b2) :
    AgreeRange lo hi b1 F :=
  fun i h1 h2 => (hF i h1 h2).trans (h12 i h1 h2)

mutual
/-- Recursion depth of a payload tree (≥ 1). -/
def payDepth : PayDir → Nat
  | .mk _ subs _ => 1 + payDepthList subs

def payDepthList : List PayDir → Nat
  | [] => 0
  | d :: ds => max (payDepth d) (payDepthList ds)
end

theorem payDepth_le_of_mem : ∀ (ds : List PayDir) (d : PayDir), d ∈ ds →
    payDepth d ≤ payDepthList ds := by
  intro ds
  induction ds with
  | nil => intro d hd; cases hd
  | cons a ds ih =>
    intro d hd
    rw [payDepthList]
    rcases List.mem_cons.mp hd with rfl | hd2
    · exact le_max_left _ _
    · exact le_trans (ih d hd2) (le_max_right _ _)

/-- All names appearing in a payload tree are good (the root's own name
is never written and is unconstrained). -/
inductive GoodPay : PayDir → Prop where
  | mk : ∀ (nm : List Nat) (subs : List PayDir)
      (files : List (List Nat × Nat × Nat)),
      (∀ f ∈ files, GoodName f.1) →
      (∀ s ∈ subs, GoodName (PayDir.name s)) →
      (∀ s ∈ subs, GoodPay s) →
      GoodPay (PayDir.mk nm subs files)

mutual
/-- The parsed entry list of a node corresponds to the payload node:
subdirectory entries first, then file entries. -/
inductive MatchDir : PayDir → List PEntry → Prop where
  | mk : ∀ (nm : List Nat) (subs : List PayDir)
      (files : List (List Nat × Nat × Nat)) (es1 es2 : List PEntry),
      MatchSubs subs es1 → MatchFiles files es2 →
      MatchDir (PayDir.mk nm subs files) (es1 ++ es2)

/-- Pointwise correspondence of subdirectory entries. -/
inductive MatchSubs : List PayDir → List PEntry → Prop where
  | nil : MatchSubs [] []
  | cons : ∀ (s : PayDir) (e : PEntry) (subs : List PayDir)
      (es : List PEntry),
      PEntry.name e = PayDir.name s →
      PEntry.isDirectory e = true →
      PEntry.isCompressed e = false →
      MatchDir s (PEntry.children e) →
      MatchSubs subs es →
      MatchSubs (s :: subs) (e :: es)

/-- Pointwise correspondence of file entries: name, kind, and the
size / chunk-table-offset fields (low 32 bits, as stored). -/
inductive MatchFiles : List (List Nat × Nat × Nat) → List PEntry → Prop where
  | nil : MatchFiles [] []
  | cons : ∀ (f : List Nat × Nat × Nat) (e : PEntry)
      (files : List (List Nat × Nat × Nat)) (es : List PEntry),
      PEntry.name e = f.1 →
      PEntry.isDirectory e = false →
      PEntry.isCompressed e = true →
      PEntry.size e = some (f.2.2 % 2 ^ 32) →
      PEntry.chunkTableOffset e = some (f.2.1 % 2 ^ 32) →
      PEntry.children e = [] →
      MatchFiles files es →
      MatchFiles (f :: files) (e :: es)
end


/-! ### Specification of the directory-pass writers (groundwork for C10) -/

/-- `b2` is `b1` with bytes appended. -/
def Extends (b1 b2 : List Nat) : Prop := ∃ t, b2 = b1 ++ t

theorem Extends.refl (b : List Nat) : Extends b b := ⟨[], by simp⟩

theorem Extends.trans {a b c : List Nat} (h1 : Extends a b)
    (h2 : Extends b c) : Extends a c := by
  obtain ⟨t1, rfl⟩ := h1
  obtain ⟨t2, rfl⟩ := h2
  exact ⟨t1 ++ t2, by simp⟩

theorem Extends.length_le {a b : List Nat} (h : Extends a b) :
    a.length ≤ b.length := by
  obtain ⟨t, rfl⟩ := h
  simp

theorem Extends.getElem? {a b : List Nat} (h : Extends a b) {i : Nat}
    (hi : i < a.length) : b[i]? = a[i]? := by
  obtain ⟨t, rfl⟩ := h
  exact getElem?_append_of_lt hi

theorem writeBytes_buffer (st : AState) (d : List Nat) :
    (writeBytes st d).buffer = st.buffer ++ d := rfl

theorem writeBytes_stOk {st : AState} (d : List Nat) (h : StOk st) :
    StOk (writeBytes st d) := by
  unfold StOk writeBytes at *
  simp only [List.length_append]
  omega

theorem reserveSpace_stOk {st : AState} (n : Nat) (h : StOk st) :
    StOk (reserveSpace st n) := by
  unfold StOk reserveSpace at *
  simp only [List.length_append, List.length_replicate]
  omega

theorem encodeAsciiReplace_of_good {n : List Nat} (h : GoodName n) :
    encodeAsciiReplace n = n := by
  unfold encodeAsciiReplace
  rw [show n.map (fun c => if c < 128 then c else 63) = n.map id from ?_,
    List.map_id]
  apply List.map_congr_left
  intro c hc
  simp [if_pos (h c hc).2]

/-- Per-entry guarantee for a written file entry, relative to the
writing phase's buffer interval `[lo, hi)` in `buf`. -/
def FileEntryOk (lo hi : Nat) (buf : List Nat)
    (f : List Nat × Nat × Nat) (e : Nat × Nat × Nat) : Prop :=
  e.2.2 = 2 ∧
  0x14 ≤ e.1 ∧ e.1 < 0x14 + hi ∧
  0x14 ≤ e.2.1 ∧ e.2.1 + 8 ≤ 0x14 + hi ∧
  ∀ F, AgreeRange lo hi buf F →
    readCString F e.1 = f.1 ∧
    pReadU32 F e.2.1 = some (f.2.1 % 2 ^ 32) ∧
    pReadU32 F (e.2.1 + 4) = some (f.2.2 % 2 ^ 32)

theorem FileEntryOk.mono_file {lo hi lo2 hi2 : Nat} {buf buf2 : List Nat}
    {f : List Nat × Nat × Nat} {e : Nat × Nat × Nat}
    (h : FileEntryOk lo hi buf f e) (hlo : lo2 ≤ lo) (hhi : hi ≤ hi2)
    (hagree : AgreeRange lo hi buf buf2) :
    FileEntryOk lo2 hi2 buf2 f e := by
  obtain ⟨h1, h2, h3, h4, h5, h6⟩ := h
  refine ⟨h1, h2, by omega, h4, by omega, ?_⟩
  intro F hF
  exact h6 F (AgreeRange.trans_sub (hF.restrict hlo hhi) hagree)

/-- Specification of the file loop `writeDirFiles`: it appends, keeps
the state invariant and byte bound, and each produced entry reads back
correctly from any buffer agreeing with the final one on the phase's
interval. -/
theorem writeDirFiles_spec :
    ∀ (files : List (List Nat × Nat × Nat)) (st : AState),
      StOk st → (∀ f ∈ files, GoodName f.1) →
      Extends st.buffer (writeDirFiles files st).1.buffer ∧
      StOk (writeDirFiles files st).1 ∧
      ((∀ b ∈ st.buffer, b < 256) →
        ∀ b ∈ (writeDirFiles files st).1.buffer, b < 256) ∧
      List.Forall₂
        (FileEntryOk st.buffer.length (writeDirFiles files st).1.buffer.length
          (writeDirFiles files st).1.buffer)
        files (writeDirFiles files st).2 := by
  intro files
  induction files with
  | nil =>
    intro st hok _
    exact ⟨Extends.refl _, hok, fun h => h, List.Forall₂.nil⟩
  | cons f rest ih =>
    intro st hok hgood
    obtain ⟨n, cto, sz⟩ := f
    have hgn : GoodName n := hgood _ (List.mem_cons_self _ _)
    rw [writeDirFiles]
    dsimp only
    set stA := (writeCString st n).1 with hstA
    have hbufA : stA.buffer = st.buffer ++ (n ++ [0]) := by
      rw [hstA]
      unfold writeCString
      dsimp only
      rw [writeBytes_buffer, encodeAsciiReplace_of_good hgn]
    have hokA : StOk stA := by
      rw [hstA]; exact writeBytes_stOk _ hok
    set stB := writeU32 (writeU32 stA cto) sz with hstB
    have hbufB : stB.buffer = stA.buffer ++ (u32le cto ++ u32le sz) := by
      rw [hstB]
      unfold writeU32
      rw [writeBytes_buffer, writeBytes_buffer, List.append_assoc]
    have hokB : StOk stB := by
      rw [hstB]; exact writeBytes_stOk _ (writeBytes_stOk _ hokA)
    obtain ⟨hext4, hok4, hbytes4, hforall⟩ := ih stB hokB
      (fun g hg => hgood g (List.mem_cons_of_mem _ hg))
    set st4 := (writeDirFiles rest stB).1 with hst4
    have hlenA : stA.buffer.length = st.buffer.length + (n.length + 1) := by
      rw [hbufA]; simp
    have hlenB : stB.buffer.length = stA.buffer.length + 8 := by
      rw [hbufB]; simp [u32le]
    have hextB4 : Extends stB.buffer st4.buffer := hext4
    have hext : Extends st.buffer st4.buffer :=
      Extends.trans ⟨_, hbufA⟩ (Extends.trans ⟨_, hbufB⟩ hextB4)
    refine ⟨hext, hok4, ?_, ?_⟩
    · intro hb b hbmem
      apply hbytes4
      intro b2 hb2
      rw [hbufB, hbufA] at hb2
      rcases List.mem_append.mp hb2 with h2 | h2
      · rcases List.mem_append.mp h2 with h3 | h3
        · exact hb _ h3
        · rcases List.mem_append.mp h3 with h4 | h4
          · have := hgn _ h4; omega
          · simp at h4; omega
      · rcases List.mem_append.mp h2 with h3 | h3
        · exact u32le_bytes_lt _ _ h3
        · exact u32le_bytes_lt _ _ h3
      · exact hbmem
    · refine List.Forall₂.cons ?_ ?_
      · -- the head entry
        have hNameOff : (writeCString st n).2 = 0x14 + st.buffer.length := by
          unfold writeCString
          dsimp only
          exact hok
        have hInfoOff : stA.currentOffset = 0x14 + stA.buffer.length := hokA
        unfold FileEntryOk
        dsimp only
        refine ⟨rfl, ?_, ?_, ?_, ?_, ?_⟩
        · rw [hNameOff]; omega
        · rw [hNameOff]
          have := hextB4.length_le
          omega
        · rw [hInfoOff]; omega
        · rw [hInfoOff]
          have := hextB4.length_le
          omega
        · intro F hF
          have hle4 := hextB4.length_le
          have hreadF : ∀ i, st.buffer.length ≤ i → i < stB.buffer.length →
              F[i]? = stB.buffer[i]? := by
            intro i h1 h2
            rw [hF i h1 (by omega)]
            exact hextB4.getElem? h2
          refine ⟨?_, ?_, ?_⟩
          · rw [hNameOff, show (0x14 : Nat) + st.buffer.length
              = st.buffer.length + 0x14 from by omega]
            apply readCString_correct F st.buffer.length n hgn
            intro k hk
            rw [hreadF (st.buffer.length + k) (by omega) (by omega)]
            rw [hbufB, getElem?_append_of_lt (by omega : st.buffer.length + k < stA.buffer.length),
              hbufA, getElem?_append_right_of_le]
          · unfold pReadU32
            rw [hInfoOff, show (0x14 : Nat) + stA.buffer.length - 0x14
              = stA.buffer.length from by omega]
            apply readU32_of_u32le
            intro k hk
            rw [hreadF (stA.buffer.length + k) (by omega) (by omega)]
            rw [hbufB, getElem?_append_right_of_le,
              getElem?_append_of_lt (by rw [u32le_length]; omega)]
          · unfold pReadU32
            rw [hInfoOff, show (0x14 : Nat) + stA.buffer.length + 4 - 0x14
              = stA.buffer.length + 4 from by omega]
            apply readU32_of_u32le
            intro k hk
            rw [show stA.buffer.length + 4 + k = stA.buffer.length + (4 + k)
              from by omega]
            rw [hreadF (stA.buffer.length + (4 + k)) (by omega) (by omega)]
            rw [hbufB, getElem?_append_right_of_le,
              show (4 : Nat) + k = (u32le cto).length + k from by
                rw [u32le_length],
              getElem?_append_right_of_le]
      · -- the tail entries, with a widened interval
        refine List.Forall₂.imp ?_ hforall
        intro f e he
        refine he.mono_file (by omega) (le_refl _) ?_
        intro i h1 h2
        rfl


/-! ### Entry-table backfill: read-back lemmas (groundwork for C10) -/

theorem backfillEntries_length :
    ∀ (entries : List (Nat × Nat × Nat)) (buf : List Nat) (base j : Nat),
      (backfillEntries buf base j entries).length = buf.length := by
  intro entries
  induction entries with
  | nil => intro buf base j; rfl
  | cons t rest ih =>
    intro buf base j
    obtain ⟨no, io, fl⟩ := t
    rw [backfillEntries, ih, setBytes_length]

theorem backfillEntries_outside :
    ∀ (entries : List (Nat × Nat × Nat)) (buf : List Nat) (base j i : Nat),
      (i < base + 9 * j ∨ base + 9 * (j + entries.length) ≤ i) →
      (backfillEntries buf base j entries)[i]? = buf[i]? := by
  intro entries
  induction entries with
  | nil => intro buf base j i _; rfl
  | cons t rest ih =>
    intro buf base j i hi
    obtain ⟨no, io, fl⟩ := t
    simp only [List.length_cons] at hi
    rw [backfillEntries, ih _ _ _ _ (by omega),
      setBytes_getElem?_outside _ _ _ _ (by simp [u32le]; omega)]

theorem backfillEntries_slot :
    ∀ (entries : List (Nat × Nat × Nat)) (buf : List Nat) (base j : Nat),
      base + 9 * (j + entries.length) ≤ buf.length →
      ∀ (k : Nat) (t : Nat × Nat × Nat), entries[k]? = some t →
        ∀ m, m < 9 →
          (backfillEntries buf base j entries)[base + 9 * (j + k) + m]? =
            (u32le t.1 ++ u32le t.2.1 ++ [t.2.2])[m]? := by
  intro entries
  induction entries with
  | nil =>
    intro buf base j _ k t ht
    simp at ht
  | cons t0 rest ih =>
    intro buf base j hle k t ht m hm
    obtain ⟨no, io, fl⟩ := t0
    simp only [List.length_cons] at hle
    rw [backfillEntries]
    cases k with
    | zero =>
      simp only [List.getElem?_cons_zero, Option.some.injEq] at ht
      subst ht
      rw [backfillEntries_outside rest _ base (j + 1) _ (by omega)]
      rw [show base + 9 * (j + 0) + m = base + j * 9 + m from by omega]
      exact setBytes_getElem?_inside _ _ _ _ (by simp [u32le]; omega)
        (by simp [u32le]; omega)
    | succ k =>
      simp only [List.getElem?_cons_succ] at ht
      have := ih (setBytes buf (base + j * 9) (u32le no ++ u32le io ++ [fl]))
        base (j + 1) (by rw [setBytes_length]; omega) k t ht m hm
      rw [show base + 9 * (j + (k + 1)) = base + 9 * (j + 1 + k) from by omega]
      exact this

theorem mem_setBytes {P : Nat → Prop} :
    ∀ (vs : List Nat) (l : List Nat) (i : Nat),
      (∀ b ∈ l, P b) → (∀ v ∈ vs, P v) → ∀ b ∈ setBytes l i vs, P b := by
  intro vs
  induction vs with
  | nil => intro l i hl _ b hb; exact hl b hb
  | cons v vs ih =>
    intro l i hl hv b hb
    rw [setBytes] at hb
    refine ih (l.set i v) (i + 1) ?_ (fun x hx => hv x (List.mem_cons_of_mem v hx)) b hb
    intro x hx
    rcases List.mem_or_eq_of_mem_set hx with h | h
    · exact hl x h
    · rw [h]; exact hv v (List.mem_cons_self v vs)

theorem mem_backfillEntries {P : Nat → Prop} :
    ∀ (entries : List (Nat × Nat × Nat)) (buf : List Nat) (base j : Nat),
      (∀ b ∈ buf, P b) →
      (∀ t ∈ entries, (∀ b ∈ u32le t.1, P b) ∧ (∀ b ∈ u32le t.2.1, P b) ∧
        P t.2.2) →
      ∀ b ∈ backfillEntries buf base j entries, P b := by
  intro entries
  induction entries with
  | nil => intro buf base j hbuf _ b hb; exact hbuf b hb
  | cons t rest ih =>
    intro buf base j hbuf hts b hb
    obtain ⟨no, io, fl⟩ := t
    rw [backfillEntries] at hb
    refine ih _ base (j + 1) ?_
      (fun t ht => hts t (List.mem_cons_of_mem _ ht)) b hb
    apply mem_setBytes _ _ _ hbuf
    intro v hv
    have hhead := hts (no, io, fl) (List.mem_cons_self _ _)
    rcases List.mem_append.mp hv with h | h
    · rcases List.mem_append.mp h with h2 | h2
      · exact hhead.1 _ h2
      · exact hhead.2.1 _ h2
    · simp only [List.mem_singleton] at h
      subst h
      exact hhead.2.2

/-! ### Reassembling `_parse_directory`'s entry loop (groundwork for C10) -/

/-- What the parser constructs from one 9-byte entry record
`t = (name_offset, info_offset, flags)`, provided the required reads
succeed. -/
def TripleParses (F : List Nat) (cp : Nat → Option (List PEntry))
    (t : Nat × Nat × Nat) (e : PEntry) : Prop :=
  (t.2.2 &&& 1 ≠ 0 ∧ ∃ ces, cp t.2.1 = some ces ∧
    e = PEntry.mk (readCString F t.1) t.2.1 t.2.2 true (t.2.2 &&& 2 ≠ 0)
      none none ces)
  ∨ (t.2.2 &&& 1 = 0 ∧ ∃ sz cto, pReadU32 F (t.2.1 + 4) = some sz ∧
    pReadU32 F t.2.1 = some cto ∧
    e = PEntry.mk (readCString F t.1) t.2.1 t.2.2 false (t.2.2 &&& 2 ≠ 0)
      (some sz) (some cto) [])

/-- The entry loop succeeds and produces one parsed entry per record
when every record's table slot reads back and its reads succeed. -/
theorem parseEntriesAux_build (F : List Nat)
    (cp : Nat → Option (List PEntry)) (bo : Nat) :
    ∀ (triples : List (Nat × Nat × Nat)) (i : Nat),
      (∀ (k : Nat) (t : Nat × Nat × Nat), triples[k]? = some t →
        readU32 F (bo + 8 + (i + k) * 9) = some t.1 ∧
        readU32 F (bo + 8 + (i + k) * 9 + 4) = some t.2.1 ∧
        F[bo + 8 + (i + k) * 9 + 8]? = some t.2.2) →
      (∀ t ∈ triples,
        (t.2.2 &&& 1 ≠ 0 ∧ ∃ ces, cp t.2.1 = some ces) ∨
        (t.2.2 &&& 1 = 0 ∧ ∃ sz cto, pReadU32 F (t.2.1 + 4) = some sz ∧
          pReadU32 F t.2.1 = some cto)) →
      ∃ es, parseEntriesAux F cp bo triples.length i = some es ∧
        List.Forall₂ (TripleParses F cp) triples es := by
  intro triples
  induction triples with
  | nil =>
    intro i _ _
    exact ⟨[], rfl, List.Forall₂.nil⟩
  | cons t rest ih =>
    intro i htable hread
    obtain ⟨no, io, fl⟩ := t
    have h0 := htable 0 (no, io, fl) (by simp)
    simp only at h0
    obtain ⟨hno, hio, hfl⟩ := h0
    have hrest := ih (i + 1) (fun k t ht => by
      have := htable (k + 1) t (by simpa using ht)
      simpa [show i + (k + 1) = i + 1 + k from by omega] using this)
      (fun t ht => hread t (List.mem_cons_of_mem _ ht))
    obtain ⟨es, hes, hfa⟩ := hrest
    rw [List.length_cons, parseEntriesAux]
    rw [show bo + 8 + i * 9 = bo + 8 + (i + 0) * 9 from by omega, hno, hio, hfl]
    dsimp only
    rcases hread (no, io, fl) (List.mem_cons_self _ _) with
      ⟨hdir, ces, hces⟩ | ⟨hfile, sz, cto, hsz, hcto⟩
    · simp only at hdir hces
      rw [if_pos hdir, hces, hes]
      exact ⟨_, rfl, List.Forall₂.cons
        (Or.inl ⟨hdir, ces, hces, rfl⟩) hfa⟩
    · simp only at hfile hsz hcto
      rw [if_neg (by simpa using hfile), hsz, hcto, hes]
      exact ⟨_, rfl, List.Forall₂.cons
        (Or.inr ⟨hfile, sz, cto, hsz, hcto, rfl⟩) hfa⟩


/-! ### Subdirectory entries and the node specification (groundwork for
C10) -/

/-- Per-entry guarantee for a written subdirectory entry, relative to
the phase interval `[lo, hi)` in `buf`: the flag is `0x01`, the offsets
are in range, and from any buffer agreeing on the interval the name
reads back and the child node parses to entries matching the payload
subtree. -/
def SubEntryOk (lo hi : Nat) (buf : List Nat) (s : PayDir)
    (e : Nat × Nat × Nat) : Prop :=
  e.2.2 = 1 ∧
  0x14 ≤ e.1 ∧ e.1 < 0x14 + hi ∧
  0x14 ≤ e.2.1 ∧ e.2.1 < 0x14 + hi ∧
  ∀ F, AgreeRange lo hi buf F →
    readCString F e.1 = PayDir.name s ∧
    ∀ depth, payDepth s ≤ depth →
      ∃ ces, parseDirectory F depth e.2.1 = some ces ∧ MatchDir s ces

theorem SubEntryOk.mono_dir {lo hi lo2 hi2 : Nat} {buf buf2 : List Nat}
    {s : PayDir} {e : Nat × Nat × Nat}
    (h : SubEntryOk lo hi buf s e) (hlo : lo2 ≤ lo) (hhi : hi ≤ hi2)
    (hagree : AgreeRange lo hi buf buf2) :
    SubEntryOk lo2 hi2 buf2 s e := by
  obtain ⟨h1, h2, h3, h4, h5, h6⟩ := h
  refine ⟨h1, h2, by omega, h4, by omega, ?_⟩
  intro F hF
  exact h6 F (AgreeRange.trans_sub (hF.restrict hlo hhi) hagree)

theorem forall2_mem_right {α β : Type} {R : α → β → Prop}
    {as : List α} {bs : List β} (h : List.Forall₂ R as bs) :
    ∀ b ∈ bs, ∃ a ∈ as, R a b := by
  induction h with
  | nil => intro b hb; cases hb
  | cons hab h2 ih =>
    intro b hb
    rcases List.mem_cons.mp hb with rfl | hb2
    · exact ⟨_, List.mem_cons_self _ _, hab⟩
    · obtain ⟨a, ha, hr⟩ := ih b hb2
      exact ⟨a, List.mem_cons_of_mem _ ha, hr⟩

theorem forall2_append_split {α β : Type} {R : α → β → Prop} :
    ∀ (as1 : List α) (as2 : List α) (bs : List β),
      List.Forall₂ R (as1 ++ as2) bs →
      ∃ bs1 bs2, bs = bs1 ++ bs2 ∧ List.Forall₂ R as1 bs1 ∧
        List.Forall₂ R as2 bs2 := by
  intro as1
  induction as1 with
  | nil => intro as2 bs h; exact ⟨[], bs, rfl, List.Forall₂.nil, h⟩
  | cons a as1 ih =>
    intro as2 bs h
    cases h with
    | cons hab h2 =>
      obtain ⟨bs1, bs2, rfl, hf1, hf2⟩ := ih as2 _ h2
      exact ⟨_ :: bs1, bs2, rfl, List.Forall₂.cons hab hf1, hf2⟩

/-- Subdirectory entries that satisfy `SubEntryOk` and parse according
to `TripleParses` yield the `MatchSubs` correspondence. -/
theorem matchSubs_of_ok {lo hi depth : Nat} {buf F : List Nat}
    (hagree : AgreeRange lo hi buf F) :
    ∀ (subs : List PayDir) (ts : List (Nat × Nat × Nat)),
      List.Forall₂ (SubEntryOk lo hi buf) subs ts →
      (∀ s ∈ subs, payDepth s ≤ depth) →
      ∀ (es : List PEntry),
        List.Forall₂ (TripleParses F (parseDirectory F depth)) ts es →
        MatchSubs subs es := by
  intro subs
  induction subs with
  | nil =>
    intro ts h1 _ es h2
    cases h1
    cases h2
    exact MatchSubs.nil
  | cons s subs ih =>
    intro ts h1 hdep es h2
    cases h1 with
    | cons hok1 htail1 =>
      cases h2 with
      | cons htp htail2 =>
        unfold SubEntryOk at hok1
        obtain ⟨hfl, _, _, _, _, hFclause⟩ := hok1
        obtain ⟨hname, hparse⟩ := hFclause F hagree
        unfold TripleParses at htp
        rcases htp with ⟨hne, ces, hces, rfl⟩ | ⟨heq0, _⟩
        · obtain ⟨ces2, hces2, hmatch⟩ :=
            hparse depth (hdep s (List.mem_cons_self _ _))
          rw [hces] at hces2
          injection hces2 with hcc
          subst hcc
          refine MatchSubs.cons s _ subs _ ?_ rfl ?_ ?_
            (ih _ htail1 (fun x hx => hdep x (List.mem_cons_of_mem _ hx))
              _ htail2)
          · simpa [PEntry.name] using hname
          · show decide _ = false
            rw [hfl]
            decide
          · simpa [PEntry.children] using hmatch
        · exfalso
          rw [hfl] at heq0
          exact absurd heq0 (by decide)

/-- File entries that satisfy `FileEntryOk` and parse according to
`TripleParses` yield the `MatchFiles` correspondence. -/
theorem matchFiles_of_ok {lo hi depth : Nat} {buf F : List Nat}
    (hagree : AgreeRange lo hi buf F) :
    ∀ (files : List (List Nat × Nat × Nat)) (ts : List (Nat × Nat × Nat)),
      List.Forall₂ (FileEntryOk lo hi buf) files ts →
      ∀ (es : List PEntry),
        List.Forall₂ (TripleParses F (parseDirectory F depth)) ts es →
        MatchFiles files es := by
  intro files
  induction files with
  | nil =>
    intro ts h1 es h2
    cases h1
    cases h2
    exact MatchFiles.nil
  | cons f files ih =>
    intro ts h1 es h2
    cases h1 with
    | cons hok1 htail1 =>
      cases h2 with
      | cons htp htail2 =>
        unfold FileEntryOk at hok1
        obtain ⟨hfl, _, _, _, _, hFclause⟩ := hok1
        obtain ⟨hname, hcto, hsz⟩ := hFclause F hagree
        unfold TripleParses at htp
        rcases htp with ⟨hne, _⟩ | ⟨heq0, sz, cto, hszr, hctor, rfl⟩
        · exfalso
          rw [hfl] at hne
          exact hne (by decide)
        · rw [hsz] at hszr
          injection hszr with hszv
          rw [hcto] at hctor
          injection hctor with hctov
          refine MatchFiles.cons f _ files _ ?_ rfl ?_ ?_ ?_ rfl
            (ih _ htail1 _ htail2)
          · simpa [PEntry.name] using hname
          · show decide _ = true
            rw [hfl]
            decide
          · show some sz = some _
            rw [← hszv]
          · show some cto = some _
            rw [← hctov]

/-- What `writeDirectoryTree` guarantees: the node only appends (and
backfills inside its own region), keeps the state invariant and byte
bound, returns the offset it was written at, and — provided the archive
stays below 4 GiB — parses back (from any buffer agreeing on the
written range) to entries matching the payload tree. -/
def WdtConcl (d : PayDir) (st : AState) : Prop :=
  st.buffer.length + 8 ≤ (writeDirectoryTree d st).1.buffer.length ∧
  (∀ i, i < st.buffer.length →
    (writeDirectoryTree d st).1.buffer[i]? = st.buffer[i]?) ∧
  StOk (writeDirectoryTree d st).1 ∧
  (writeDirectoryTree d st).2.1 = st.currentOffset ∧
  ((∀ b ∈ st.buffer, b < 256) →
    ∀ b ∈ (writeDirectoryTree d st).1.buffer, b < 256) ∧
  (0x14 + (writeDirectoryTree d st).1.buffer.length < 2 ^ 32 →
    ∀ F, AgreeRange st.buffer.length
        (writeDirectoryTree d st).1.buffer.length
        (writeDirectoryTree d st).1.buffer F →
      ∀ depth, payDepth d ≤ depth →
        ∃ es, parseDirectory F depth (writeDirectoryTree d st).2.1 =
          some es ∧ MatchDir d es)

/-- What the subdirectory loop `writeDirSubdirs` guarantees. -/
def WdsConcl (subs : List PayDir) (st : AState) : Prop :=
  st.buffer.length ≤ (writeDirSubdirs subs st).1.buffer.length ∧
  (∀ i, i < st.buffer.length →
    (writeDirSubdirs subs st).1.buffer[i]? = st.buffer[i]?) ∧
  StOk (writeDirSubdirs subs st).1 ∧
  ((∀ b ∈ st.buffer, b < 256) →
    ∀ b ∈ (writeDirSubdirs subs st).1.buffer, b < 256) ∧
  (0x14 + (writeDirSubdirs subs st).1.buffer.length < 2 ^ 32 →
    List.Forall₂ (SubEntryOk st.buffer.length
      (writeDirSubdirs subs st).1.buffer.length
      (writeDirSubdirs subs st).1.buffer) subs (writeDirSubdirs subs st).2)

/-- Specification of the subdirectory loop, given the node
specification for every child. -/
theorem writeDirSubdirs_spec :
    ∀ (subs : List PayDir),
      (∀ s ∈ subs, GoodName (PayDir.name s)) →
      (∀ s ∈ subs, ∀ st2, StOk st2 → WdtConcl s st2) →
      ∀ (st : AState), StOk st → WdsConcl subs st := by
  intro subs
  induction subs with
  | nil =>
    intro _ _ st hok
    unfold WdsConcl
    rw [writeDirSubdirs]
    exact ⟨le_refl _, fun i _ => rfl, hok, fun h => h,
      fun _ => List.Forall₂.nil⟩
  | cons d rest ih =>
    intro hgn hwdt st hok
    unfold WdsConcl
    rw [writeDirSubdirs]
    dsimp only
    set stA := (writeCString st (PayDir.name d)).1 with hstA
    set r2 := writeDirectoryTree d stA with hr2
    set r3 := writeDirSubdirs rest r2.1 with hr3
    have hgnd : GoodName (PayDir.name d) := hgn d (List.mem_cons_self _ _)
    have hbufA : stA.buffer = st.buffer ++ (PayDir.name d ++ [0]) := by
      rw [hstA]
      unfold writeCString
      dsimp only
      rw [writeBytes_buffer, encodeAsciiReplace_of_good hgnd]
    have hokA : StOk stA := by
      rw [hstA]
      unfold writeCString
      dsimp only
      exact writeBytes_stOk _ hok
    have hlenA : stA.buffer.length
        = st.buffer.length + ((PayDir.name d).length + 1) := by
      rw [hbufA]
      simp
    have hwdtd := hwdt d (List.mem_cons_self _ _) stA hokA
    unfold WdtConcl at hwdtd
    rw [← hr2] at hwdtd
    obtain ⟨hlenB, hpresB, hokB, hoffB, hbytesB, hparseB⟩ := hwdtd
    have hrest := ih (fun s hs => hgn s (List.mem_cons_of_mem _ hs))
      (fun s hs => hwdt s (List.mem_cons_of_mem _ hs)) r2.1 hokB
    unfold WdsConcl at hrest
    rw [← hr3] at hrest
    obtain ⟨hlenC, hpresC, hokC, hbytesC, hfaC⟩ := hrest
    have hokEq : st.currentOffset = 0x14 + st.buffer.length := hok
    have hokAEq : stA.currentOffset = 0x14 + stA.buffer.length := hokA
    refine ⟨by omega, ?_, hokC, ?_, ?_⟩
    · intro i hi
      rw [hpresC i (by omega), hpresB i (by omega), hbufA,
        getElem?_append_of_lt hi]
    · intro hb
      apply hbytesC
      apply hbytesB
      intro b hbm
      rw [hbufA] at hbm
      rcases List.mem_append.mp hbm with h | h
      · exact hb _ h
      · rcases List.mem_append.mp h with h2 | h2
        · have := hgnd _ h2
          omega
        · simp only [List.mem_singleton] at h2
          omega
    · intro hbound
      have hboundB : 0x14 + r2.1.buffer.length < 2 ^ 32 := by omega
      have hNO : (writeCString st (PayDir.name d)).2
          = 0x14 + st.buffer.length := hokEq
      refine List.Forall₂.cons ?_ ?_
      · unfold SubEntryOk
        dsimp only
        refine ⟨rfl, ?_, ?_, ?_, ?_, ?_⟩
        · rw [hNO]
          omega
        · rw [hNO]
          omega
        · rw [hoffB, hokAEq]
          omega
        · rw [hoffB, hokAEq]
          omega
        · intro F hF
          constructor
          · rw [hNO, show (0x14 : Nat) + st.buffer.length
              = st.buffer.length + 0x14 from by omega]
            apply readCString_correct F st.buffer.length (PayDir.name d) hgnd
            intro k hk
            rw [hF (st.buffer.length + k) (by omega) (by omega),
              hpresC _ (by omega), hpresB _ (by omega), hbufA,
              getElem?_append_right_of_le]
          · intro depth hdep
            have hFB : AgreeRange stA.buffer.length r2.1.buffer.length
                r2.1.buffer F := by
              intro i h1 h2
              rw [hF i (by omega) (by omega), hpresC i (by omega)]
            obtain ⟨es, hes, hm⟩ := hparseB hboundB F hFB depth hdep
            exact ⟨es, hes, hm⟩
      · have hfaC2 := hfaC (by omega)
        refine List.Forall₂.imp ?_ hfaC2
        intro s e h
        exact h.mono_dir (by omega) (le_refl _) (fun i h1 h2 => rfl)


/-- Specification of `_write_directory_tree`: by induction over the
payload tree (via its `GoodPay` derivation), using the loop
specifications for the subdirectory and file passes and the
entry-table backfill read-back. -/
theorem writeDirectoryTree_spec :
    ∀ (d : PayDir), GoodPay d → ∀ (st : AState), StOk st → WdtConcl d st := by
  intro d hgood
  induction hgood with
  | mk nm subs files hgf hgsn hgs IH =>
    intro st hok
    have hwds := writeDirSubdirs_spec subs hgsn IH
    unfold WdtConcl
    rw [writeDirectoryTree]
    dsimp only
    set N := subs.length + files.length with hN
    set st1 := writeU32 (writeU32 st N) 0 with hst1
    set st2 := reserveSpace st1 (N * 9) with hst2
    set rsub := writeDirSubdirs subs st2 with hrsub
    set rfil := writeDirFiles files rsub.1 with hrfil
    set entries := rsub.2 ++ rfil.2 with hentries
    set base := st1.currentOffset - 0x14 with hbase
    set final := backfillEntries rfil.1.buffer base 0 entries with hfinal
    have hok1 : StOk st1 := by
      rw [hst1]
      exact writeBytes_stOk _ (writeBytes_stOk _ hok)
    have hbuf1 : st1.buffer = st.buffer ++ (u32le N ++ u32le 0) := by
      rw [hst1]
      unfold writeU32
      rw [writeBytes_buffer, writeBytes_buffer, List.append_assoc]
    have hlen1 : st1.buffer.length = st.buffer.length + 8 := by
      rw [hbuf1]
      simp [u32le]
    have hok2 : StOk st2 := by
      rw [hst2]
      exact reserveSpace_stOk _ hok1
    have hbuf2 : st2.buffer = st1.buffer ++ List.replicate (N * 9) 0 := by
      rw [hst2]
      rfl
    have hlen2 : st2.buffer.length = st.buffer.length + 8 + N * 9 := by
      rw [hbuf2]
      simp only [List.length_append, List.length_replicate, hlen1]
    have hwds2 := hwds st2 hok2
    unfold WdsConcl at hwds2
    rw [← hrsub] at hwds2
    obtain ⟨hmono3, hpres3, hok3, hbytes3, hfa3⟩ := hwds2
    have hwdf := writeDirFiles_spec files rsub.1 hok3 hgf
    rw [← hrfil] at hwdf
    obtain ⟨hext4, hok4, hbytes4, hfa4⟩ := hwdf
    have hle34 : rsub.1.buffer.length ≤ rfil.1.buffer.length :=
      hext4.length_le
    have hok1e : st1.currentOffset = 0x14 + st1.buffer.length := hok1
    have hbaseval : base = st.buffer.length + 8 := by
      rw [hbase]
      omega
    have hflagsS : rsub.2.map (fun e => e.2.2)
        = List.replicate subs.length 1 := by
      rw [hrsub]
      exact writeDirSubdirs_flags subs st2
    have hlenS : rsub.2.length = subs.length := by
      have := congrArg List.length hflagsS
      simpa using this
    have hlenF : rfil.2.length = files.length := hfa4.length_eq.symm
    have hNent : entries.length = N := by
      rw [hentries]
      simp [hlenS, hlenF, hN]
    have hflagS : ∀ t ∈ rsub.2, t.2.2 = 1 := by
      intro t ht
      have hmem : t.2.2 ∈ rsub.2.map (fun e => e.2.2) :=
        List.mem_map_of_mem _ ht
      rw [hflagsS] at hmem
      exact List.eq_of_mem_replicate hmem
    have hflagsF : rfil.2.map (fun e => e.2.2)
        = List.replicate files.length 2 := by
      rw [hrfil]
      exact writeDirFiles_flags files rsub.1
    have hflagF : ∀ t ∈ rfil.2, t.2.2 = 2 := by
      intro t ht
      have hmem : t.2.2 ∈ rfil.2.map (fun e => e.2.2) :=
        List.mem_map_of_mem _ ht
      rw [hflagsF] at hmem
      exact List.eq_of_mem_replicate hmem
    have hlenFinal : final.length = rfil.1.buffer.length := by
      rw [hfinal]
      exact backfillEntries_length entries rfil.1.buffer base 0
    have hok4e : rfil.1.currentOffset = 0x14 + rfil.1.buffer.length := hok4
    refine ⟨by omega, ?_, ?_, rfl, ?_, ?_⟩
    · intro i hi
      rw [hfinal,
        backfillEntries_outside entries _ base 0 i (Or.inl (by omega)),
        hext4.getElem? (by omega), hpres3 i (by omega), hbuf2,
        getElem?_append_of_lt (by omega), hbuf1,
        getElem?_append_of_lt hi]
    · unfold StOk
      dsimp only
      omega
    · intro hb
      rw [hfinal]
      apply mem_backfillEntries
      · apply hbytes4
        apply hbytes3
        intro b hbm
        rw [hbuf2] at hbm
        rcases List.mem_append.mp hbm with h | h
        · rw [hbuf1] at h
          rcases List.mem_append.mp h with h2 | h2
          · exact hb _ h2
          · rcases List.mem_append.mp h2 with h3 | h3
            · exact u32le_bytes_lt _ _ h3
            · exact u32le_bytes_lt _ _ h3
        · rw [List.eq_of_mem_replicate h]
          norm_num
      · intro t ht
        refine ⟨u32le_bytes_lt _, u32le_bytes_lt _, ?_⟩
        rw [hentries] at ht
        rcases List.mem_append.mp ht with h | h
        · rw [hflagS t h]
          norm_num
        · rw [hflagF t h]
          norm_num
    · intro hbound F hagree depth hdepth
      rw [payDepth] at hdepth
      cases depth with
      | zero => exact absurd hdepth (by omega)
      | succ depth =>
        have hdepList : payDepthList subs ≤ depth := by omega
        rw [parseDirectory]
        dsimp only
        rw [show st.currentOffset - 0x14 = st.buffer.length from by
          have h := hok
          unfold StOk at h
          omega]
        have hNlt : N < 2 ^ 32 := by omega
        have hreads : ∀ k, k < 4 →
            F[st.buffer.length + k]? = (u32le N)[k]? := by
          intro k hk
          rw [hagree (st.buffer.length + k) (by omega) (by omega), hfinal,
            backfillEntries_outside entries _ base 0 _ (Or.inl (by omega)),
            hext4.getElem? (by omega), hpres3 _ (by omega), hbuf2,
            getElem?_append_of_lt (by omega), hbuf1,
            getElem?_append_right_of_le]
          exact getElem?_append_of_lt (by rw [u32le_length]; omega)
        have hreadTop : readU32 F st.buffer.length = some N := by
          have h := readU32_of_u32le F st.buffer.length N hreads
          rwa [Nat.mod_eq_of_lt hNlt] at h
        rw [hreadTop]
        dsimp only
        rw [show N = entries.length from hNent.symm]
        have hboundS : 0x14 + rsub.1.buffer.length < 2 ^ 32 := by omega
        have hfa3b := hfa3 hboundS
        have hagree34 : AgreeRange st2.buffer.length rsub.1.buffer.length
            rsub.1.buffer final := by
          intro i h1 h2
          rw [hfinal,
            backfillEntries_outside entries _ base 0 i (Or.inr (by omega))]
          exact hext4.getElem? h2
        have hsubOk : List.Forall₂
            (SubEntryOk st.buffer.length final.length final) subs rsub.2 :=
          List.Forall₂.imp
            (fun a b h => h.mono_dir (by omega) (by omega) hagree34) hfa3b
        have hagree44 : AgreeRange rsub.1.buffer.length
            rfil.1.buffer.length rfil.1.buffer final := by
          intro i h1 h2
          rw [hfinal,
            backfillEntries_outside entries _ base 0 i (Or.inr (by omega))]
        have hfilOk : List.Forall₂
            (FileEntryOk st.buffer.length final.length final) files rfil.2 :=
          List.Forall₂.imp
            (fun a b h => h.mono_file (by omega) (by omega) hagree44) hfa4
        have hmemS := forall2_mem_right hsubOk
        have hmemF := forall2_mem_right hfilOk
        have htb : ∀ t ∈ entries, t.1 < 2 ^ 32 ∧ t.2.1 < 2 ^ 32 := by
          intro t ht
          rw [hentries] at ht
          rcases List.mem_append.mp ht with h | h
          · obtain ⟨s, _, hs⟩ := hmemS t h
            unfold SubEntryOk at hs
            obtain ⟨_, _, h3, _, h5, _⟩ := hs
            omega
          · obtain ⟨f, _, hf⟩ := hmemF t h
            unfold FileEntryOk at hf
            obtain ⟨_, _, h3, _, h5, _⟩ := hf
            omega
        have hslot : ∀ (k : Nat) (t : Nat × Nat × Nat), entries[k]? = some t →
            ∀ m, m < 9 → F[base + 9 * (0 + k) + m]? =
              (u32le t.1 ++ u32le t.2.1 ++ [t.2.2])[m]? := by
          intro k t ht m hm
          have hk : k < entries.length :=
            (List.getElem?_eq_some_iff.mp ht).1
          rw [hagree (base + 9 * (0 + k) + m) (by omega) (by omega), hfinal]
          exact backfillEntries_slot entries rfil.1.buffer base 0
            (by omega) k t ht m hm
        have htable : ∀ (k : Nat) (t : Nat × Nat × Nat), entries[k]? = some t →
            readU32 F (st.buffer.length + 8 + (0 + k) * 9) = some t.1 ∧
            readU32 F (st.buffer.length + 8 + (0 + k) * 9 + 4) = some t.2.1 ∧
            F[st.buffer.length + 8 + (0 + k) * 9 + 8]? = some t.2.2 := by
          intro k t ht
          have hmem : t ∈ entries := by
            obtain ⟨hlt, he⟩ := List.getElem?_eq_some_iff.mp ht
            rw [← he]
            exact entries.getElem_mem hlt
          obtain ⟨ht1, ht21⟩ := htb t hmem
          refine ⟨?_, ?_, ?_⟩
          · have hr : ∀ j, j < 4 →
                F[st.buffer.length + 8 + (0 + k) * 9 + j]?
                  = (u32le t.1)[j]? := by
              intro j hj
              rw [show st.buffer.length + 8 + (0 + k) * 9 + j
                = base + 9 * (0 + k) + j from by omega]
              rw [hslot k t ht j (by omega)]
              rw [getElem?_append_of_lt (by simp [u32le]; omega)]
              exact getElem?_append_of_lt (by rw [u32le_length]; omega)
            have h := readU32_of_u32le F _ t.1 hr
            rwa [Nat.mod_eq_of_lt ht1] at h
          · have hr : ∀ j, j < 4 →
                F[st.buffer.length + 8 + (0 + k) * 9 + 4 + j]?
                  = (u32le t.2.1)[j]? := by
              intro j hj
              rw [show st.buffer.length + 8 + (0 + k) * 9 + 4 + j
                = base + 9 * (0 + k) + (4 + j) from by omega]
              rw [hslot k t ht (4 + j) (by omega)]
              rw [getElem?_append_of_lt (by simp [u32le]; omega)]
              rw [show (4 : Nat) + j = (u32le t.1).length + j from by
                rw [u32le_length]]
              exact getElem?_append_right_of_le
            have h := readU32_of_u32le F _ t.2.1 hr
            rwa [Nat.mod_eq_of_lt ht21] at h
          · rw [show st.buffer.length + 8 + (0 + k) * 9 + 8
              = base + 9 * (0 + k) + 8 from by omega]
            rw [hslot k t ht 8 (by omega)]
            rw [show (8 : Nat) = (u32le t.1 ++ u32le t.2.1).length + 0 from by
              simp [u32le]]
            rw [getElem?_append_right_of_le]
            rfl
        have hread : ∀ t ∈ entries,
            (t.2.2 &&& 1 ≠ 0 ∧
              ∃ ces, parseDirectory F depth t.2.1 = some ces) ∨
            (t.2.2 &&& 1 = 0 ∧ ∃ sz cto,
              pReadU32 F (t.2.1 + 4) = some sz ∧
              pReadU32 F t.2.1 = some cto) := by
          intro t ht
          rw [hentries] at ht
          rcases List.mem_append.mp ht with h | h
          · obtain ⟨s, hsmem, hs⟩ := hmemS t h
            unfold SubEntryOk at hs
            obtain ⟨hfl, _, _, _, _, hFc⟩ := hs
            obtain ⟨_, hparse⟩ := hFc F hagree
            obtain ⟨ces, hces, _⟩ := hparse depth
              (le_trans (payDepth_le_of_mem subs s hsmem) hdepList)
            exact Or.inl ⟨by rw [hfl]; decide, ces, hces⟩
          · obtain ⟨f, _, hf⟩ := hmemF t h
            unfold FileEntryOk at hf
            obtain ⟨hfl, _, _, _, _, hFc⟩ := hf
            obtain ⟨_, hcto, hsz⟩ := hFc F hagree
            exact Or.inr ⟨by rw [hfl]; decide, _, _, hsz, hcto⟩
        obtain ⟨es, hes, hfa⟩ := parseEntriesAux_build F
          (parseDirectory F depth) st.buffer.length entries 0 htable hread
        refine ⟨es, hes, ?_⟩
        rw [hentries] at hfa
        obtain ⟨es1, es2, rfl, hfa1, hfa2⟩ := forall2_append_split _ _ _ hfa
        exact MatchDir.mk nm subs files es1 es2
          (matchSubs_of_ok hagree subs rsub.2 hsubOk
            (fun s hs => le_trans (payDepth_le_of_mem subs s hs) hdepList)
            es1 hfa1)
          (matchFiles_of_ok hagree files rfil.2 hfilOk es2 hfa2)


/-! ### Empty directories along a path (claim C10) -/

/-- The input tree list contains an empty directory at `path` (a
non-empty chain of names descending from the root's children). -/
inductive FsHasEmptyDirAt : List (List Nat) → List FsTree → Prop where
  | here (n : List Nat) (ts : List FsTree) :
      FsTree.dir n [] ∈ ts → FsHasEmptyDirAt [n] ts
  | deeper (n : List Nat) (cs : List FsTree) (ts : List FsTree)
      (p : List (List Nat)) :
      FsTree.dir n cs ∈ ts → FsHasEmptyDirAt p cs →
      FsHasEmptyDirAt (n :: p) ts

/-- The scanned tree has an empty subdirectory at `path`. -/
inductive ScanHasEmptyDirAt : List (List Nat) → ScanDir → Prop where
  | here (n : List Nat) (d s : ScanDir) :
      s ∈ ScanDir.subdirs d → ScanDir.name s = n →
      ScanDir.subdirs s = [] → ScanDir.files s = [] →
      ScanHasEmptyDirAt [n] d
  | deeper (n : List Nat) (d s : ScanDir) (p : List (List Nat)) :
      s ∈ ScanDir.subdirs d → ScanDir.name s = n →
      ScanHasEmptyDirAt p s → ScanHasEmptyDirAt (n :: p) d

/-- The payload tree has an empty subdirectory at `path`. -/
inductive PayHasEmptyDirAt : List (List Nat) → PayDir → Prop where
  | here (n : List Nat) (d s : PayDir) :
      s ∈ PayDir.subdirs d → PayDir.name s = n →
      PayDir.subdirs s = [] → PayDir.files s = [] →
      PayHasEmptyDirAt [n] d
  | deeper (n : List Nat) (d s : PayDir) (p : List (List Nat)) :
      s ∈ PayDir.subdirs d → PayDir.name s = n →
      PayHasEmptyDirAt p s → PayHasEmptyDirAt (n :: p) d

/-- The parsed entry list contains a directory entry with no children
at `path`. -/
inductive PHasEmptyDirAt : List (List Nat) → List PEntry → Prop where
  | here (n : List Nat) (es : List PEntry) (e : PEntry) :
      e ∈ es → PEntry.name e = n → PEntry.isDirectory e = true →
      PEntry.children e = [] → PHasEmptyDirAt [n] es
  | deeper (n : List Nat) (es : List PEntry) (e : PEntry)
      (p : List (List Nat)) :
      e ∈ es → PEntry.name e = n → PEntry.isDirectory e = true →
      PHasEmptyDirAt p (PEntry.children e) → PHasEmptyDirAt (n :: p) es

/-- Every name in the input tree is non-NUL ASCII (names that survive
the encode/decode round trip unchanged). -/
inductive FsGood : FsTree → Prop where
  | file (n d : List Nat) : GoodName n → FsGood (FsTree.file n d)
  | dir (n : List Nat) (cs : List FsTree) :
      GoodName n → (∀ t ∈ cs, FsGood t) → FsGood (FsTree.dir n cs)

/-- Every name in a scanned tree is non-NUL ASCII. -/
inductive ScanGood : ScanDir → Prop where
  | mk (nm : List Nat) (subs : List ScanDir)
      (files : List (List Nat × List Nat)) :
      (∀ f ∈ files, GoodName f.1) →
      (∀ s ∈ subs, GoodName (ScanDir.name s)) →
      (∀ s ∈ subs, ScanGood s) →
      ScanGood (ScanDir.mk nm subs files)

theorem fsTreeSize_pos : ∀ (t : FsTree), 1 ≤ fsTreeSize t := by
  intro t
  cases t with
  | file n d => rw [fsTreeSize]
  | dir n cs => rw [fsTreeSize]; omega

theorem fsTreeSize_le_of_mem : ∀ (ts : List FsTree) (t : FsTree),
    t ∈ ts → fsTreeSize t ≤ fsTreeListSize ts := by
  intro ts
  induction ts with
  | nil => intro t h; cases h
  | cons a ts ih =>
    intro t h
    rw [fsTreeListSize]
    rcases List.mem_cons.mp h with rfl | h2
    · omega
    · have := ih t h2
      omega

theorem scanDirF_nil (fuel : Nat) (n : List Nat) :
    scanDirF fuel n [] = ScanDir.mk n [] [] := by
  cases fuel <;> rfl

/-- Every directory item of `items` contributes its recursive scan to
the fold's subdirectory list. -/
theorem scanFold_mem_dir (fuel : Nat) :
    ∀ (items : List FsTree) (n : List Nat) (cs : List FsTree),
      FsTree.dir n cs ∈ items →
      scanDirF fuel n cs ∈ (items.foldr (fun t acc =>
        match t with
        | FsTree.dir n cs => (scanDirF fuel n cs :: acc.1, acc.2)
        | FsTree.file n d => (acc.1, (n, d) :: acc.2)) ([], [])).1 := by
  intro items
  induction items with
  | nil => intro n cs h; cases h
  | cons t rest ih =>
    intro n cs h
    rcases List.mem_cons.mp h with rfl | h2
    · simp only [List.foldr_cons]
      exact List.mem_cons_self _ _
    · cases t with
      | dir n2 cs2 =>
        simp only [List.foldr_cons]
        exact List.mem_cons_of_mem _ (ih n cs h2)
      | file n2 d2 =>
        simp only [List.foldr_cons]
        exact ih n cs h2

/-- Every element of the fold's subdirectory list is the recursive scan
of a directory item of `items`. -/
theorem scanFold_dir_src (fuel : Nat) :
    ∀ (items : List FsTree), ∀ x ∈ (items.foldr (fun t acc =>
        match t with
        | FsTree.dir n cs => (scanDirF fuel n cs :: acc.1, acc.2)
        | FsTree.file n d => (acc.1, (n, d) :: acc.2)) ([], [])).1,
      ∃ n cs, FsTree.dir n cs ∈ items ∧ x = scanDirF fuel n cs := by
  intro items
  induction items with
  | nil => intro x hx; cases hx
  | cons t rest ih =>
    intro x hx
    cases t with
    | dir n2 cs2 =>
      simp only [List.foldr_cons] at hx
      rcases List.mem_cons.mp hx with rfl | hx2
      · exact ⟨n2, cs2, List.mem_cons_self _ _, rfl⟩
      · obtain ⟨n, cs, hmem, he⟩ := ih x hx2
        exact ⟨n, cs, List.mem_cons_of_mem _ hmem, he⟩
    | file n2 d2 =>
      simp only [List.foldr_cons] at hx
      obtain ⟨n, cs, hmem, he⟩ := ih x hx
      exact ⟨n, cs, List.mem_cons_of_mem _ hmem, he⟩

/-- Every element of the fold's file list comes from a file item of
`items`. -/
theorem scanFold_file_src (fuel : Nat) :
    ∀ (items : List FsTree), ∀ y ∈ (items.foldr (fun t acc =>
        match t with
        | FsTree.dir n cs => (scanDirF fuel n cs :: acc.1, acc.2)
        | FsTree.file n d => (acc.1, (n, d) :: acc.2)) ([], [])).2,
      ∃ n d, FsTree.file n d ∈ items ∧ y = (n, d) := by
  intro items
  induction items with
  | nil => intro y hy; cases hy
  | cons t rest ih =>
    intro y hy
    cases t with
    | dir n2 cs2 =>
      simp only [List.foldr_cons] at hy
      obtain ⟨n, d, hmem, he⟩ := ih y hy
      exact ⟨n, d, List.mem_cons_of_mem _ hmem, he⟩
    | file n2 d2 =>
      simp only [List.foldr_cons] at hy
      rcases List.mem_cons.mp hy with rfl | hy2
      · exact ⟨n2, d2, List.mem_cons_self _ _, rfl⟩
      · obtain ⟨n, d, hmem, he⟩ := ih y hy2
        exact ⟨n, d, List.mem_cons_of_mem _ hmem, he⟩

/-- `_scan_dir` produces a tree with good names when the input tree has
good names. -/
theorem scanDirF_good :
    ∀ (fuel : Nat) (ts : List FsTree) (name : List Nat),
      (∀ t ∈ ts, FsGood t) → ScanGood (scanDirF fuel name ts) := by
  intro fuel
  induction fuel with
  | zero =>
    intro ts name _
    exact ScanGood.mk name [] [] (fun f hf => nomatch hf)
      (fun s hs => nomatch hs) (fun s hs => nomatch hs)
  | succ fuel ih =>
    intro ts name hg
    rw [scanDirF]
    have hmem : ∀ t ∈ List.insertionSort childLe ts, FsGood t := by
      intro t ht
      exact hg t ((List.perm_insertionSort childLe ts).mem_iff.mp ht)
    refine ScanGood.mk name _ _ ?_ ?_ ?_
    · intro f hf
      obtain ⟨n, d, hmem2, rfl⟩ := scanFold_file_src fuel _ f hf
      have hfg := hmem _ hmem2
      cases hfg with
      | file n d hgn => exact hgn
    · intro s hs
      obtain ⟨n, cs, hmem2, rfl⟩ := scanFold_dir_src fuel _ s hs
      rw [scanDirF_name]
      have hfg := hmem _ hmem2
      cases hfg with
      | dir n cs hgn _ => exact hgn
    · intro s hs
      obtain ⟨n, cs, hmem2, rfl⟩ := scanFold_dir_src fuel _ s hs
      have hfg := hmem _ hmem2
      cases hfg with
      | dir n cs _ hcs => exact ih cs n hcs

/-- `_scan_dir` preserves an empty directory at a path, for any
sufficient recursion bound. -/
theorem scanDirF_emptyDirAt :
    ∀ (p : List (List Nat)) (ts : List FsTree),
      FsHasEmptyDirAt p ts →
      ∀ fuel, fsTreeListSize ts ≤ fuel →
      ∀ name, ScanHasEmptyDirAt p (scanDirF fuel name ts) := by
  intro p ts h
  induction h with
  | here n ts hmem =>
    intro fuel hfuel name
    have h1 : 1 ≤ fsTreeListSize ts :=
      le_trans (fsTreeSize_pos _) (fsTreeSize_le_of_mem ts _ hmem)
    cases fuel with
    | zero => exact absurd (le_trans h1 hfuel) (by omega)
    | succ fuel =>
      rw [scanDirF]
      refine ScanHasEmptyDirAt.here n _ (scanDirF fuel n []) ?_
        (scanDirF_name _ _ _) ?_ ?_
      · exact scanFold_mem_dir fuel _ n []
          ((List.perm_insertionSort childLe ts).mem_iff.mpr hmem)
      · rw [scanDirF_nil]
        rfl
      · rw [scanDirF_nil]
        rfl
  | deeper n cs ts p hmem hinner ih =>
    intro fuel hfuel name
    have hsz : fsTreeSize (FsTree.dir n cs) ≤ fsTreeListSize ts :=
      fsTreeSize_le_of_mem ts _ hmem
    rw [fsTreeSize] at hsz
    cases fuel with
    | zero => exact absurd (le_trans (by omega) hfuel) (by omega : ¬(1 ≤ 0))
    | succ fuel =>
      rw [scanDirF]
      refine ScanHasEmptyDirAt.deeper n _ (scanDirF fuel n cs) p ?_
        (scanDirF_name _ _ _) (ih fuel (by omega) n)
      · exact scanFold_mem_dir fuel _ n cs
          ((List.perm_insertionSort childLe ts).mem_iff.mpr hmem)

/-! ### `StOk` preservation through the payload pass (claim C10) -/

theorem backfillSizes_length :
    ∀ (szs : List Nat) (buf : List Nat) (base i : Nat),
      (backfillSizes buf base i szs).length = buf.length := by
  intro szs
  induction szs with
  | nil => intro buf base i; rfl
  | cons sz rest ih =>
    intro buf base i
    rw [backfillSizes, ih, setBytes_length]

theorem writeChunks_stOk (mode : Nat) (zcomp : List Nat → List Nat)
    (data : List Nat) :
    ∀ (l : List Nat) (st st2 : AState) (sizes : List Nat),
      writeChunks mode zcomp data l st = some (st2, sizes) →
      StOk st → StOk st2 := by
  intro l
  induction l with
  | nil =>
    intro st st2 sizes h hok
    rw [writeChunks] at h
    cases h
    exact hok
  | cons i rest ih =>
    intro st st2 sizes h hok
    rw [writeChunks] at h
    rcases h1 : compressSqshChunk mode zcomp
        ((data.drop (i * CHUNK_SIZE)).take CHUNK_SIZE) with _ | comp
    · rw [h1] at h; cases h
    · rw [h1] at h
      dsimp only at h
      rcases h2 : writeChunks mode zcomp data rest (writeBytes st comp)
          with _ | r2
      · rw [h2] at h; cases h
      · rw [h2] at h
        obtain ⟨st3, szs⟩ := r2
        dsimp only at h
        cases h
        exact ih _ _ _ h2 (writeBytes_stOk _ hok)

theorem writeCompressedFile_stOk (mode : Nat) (zcomp : List Nat → List Nat)
    (data : List Nat) (st : AState) (st2 : AState) (cto : Nat)
    (h : writeCompressedFile mode zcomp data st = some (st2, cto))
    (hok : StOk st) : StOk st2 := by
  unfold writeCompressedFile at h
  dsimp only at h
  rcases h1 : writeChunks mode zcomp data
      (List.range ((data.length + CHUNK_SIZE - 1) / CHUNK_SIZE))
      (reserveSpace st ((data.length + CHUNK_SIZE - 1) / CHUNK_SIZE * 4))
      with _ | r1
  · rw [h1] at h; cases h
  · rw [h1] at h
    obtain ⟨st3, sizes⟩ := r1
    dsimp only at h
    cases h
    have hok3 : StOk st3 :=
      writeChunks_stOk mode zcomp data _ _ _ _ h1
        (reserveSpace_stOk _ hok)
    unfold StOk at *
    dsimp only
    rw [backfillSizes_length]
    exact hok3

theorem payFilesLoop_stOk (mode : Nat) (zcomp : List Nat → List Nat) :
    ∀ (files : List (List Nat × List Nat)) (st : AState)
      (pf : List (List Nat × Nat × Nat)) (st2 : AState),
      payFilesLoop mode zcomp files st = some (pf, st2) →
      StOk st → StOk st2 := by
  intro files
  induction files with
  | nil =>
    intro st pf st2 h hok
    rw [payFilesLoop] at h
    cases h
    exact hok
  | cons f rest ih =>
    intro st pf st2 h hok
    obtain ⟨n, data⟩ := f
    rw [payFilesLoop] at h
    rcases h1 : writeCompressedFile mode zcomp data st with _ | r1
    · rw [h1] at h; cases h
    · rw [h1] at h
      obtain ⟨st1, cto⟩ := r1
      dsimp only at h
      rcases h2 : payFilesLoop mode zcomp rest st1 with _ | r2
      · rw [h2] at h; cases h
      · rw [h2] at h
        obtain ⟨fs, st3⟩ := r2
        dsimp only at h
        cases h
        exact ih _ _ _ h2
          (writeCompressedFile_stOk mode zcomp data st st1 cto h1 hok)


theorem forall2_mem_left {α β : Type} {R : α → β → Prop}
    {as : List α} {bs : List β} (h : List.Forall₂ R as bs) :
    ∀ a ∈ as, ∃ b ∈ bs, R a b := by
  induction h with
  | nil => intro a ha; cases ha
  | cons hab h2 ih =>
    intro a ha
    rcases List.mem_cons.mp ha with rfl | ha2
    · exact ⟨_, List.mem_cons_self _ _, hab⟩
    · obtain ⟨b, hb, hr⟩ := ih a ha2
      exact ⟨b, List.mem_cons_of_mem _ hb, hr⟩

mutual
/-- The payload pass preserves the node name, keeps the state
invariant, propagates good names, and preserves empty directories at
every path. -/
theorem writeFilePayloads_spec2 (mode : Nat) (zcomp : List Nat → List Nat) :
    ∀ (s : ScanDir) (st : AState) (p : PayDir) (st2 : AState),
      writeFilePayloads mode zcomp s st = some (p, st2) →
      PayDir.name p = ScanDir.name s ∧
      (ScanDir.subdirs s = [] → PayDir.subdirs p = []) ∧
      (ScanDir.files s = [] → PayDir.files p = []) ∧
      (StOk st → StOk st2) ∧
      (ScanGood s → GoodPay p) ∧
      (∀ path, ScanHasEmptyDirAt path s → PayHasEmptyDirAt path p)
  | ScanDir.mk nm subdirs files, st, p, st2, h => by
    rw [writeFilePayloads] at h
    rcases h1 : payFilesLoop mode zcomp files st with _ | r1
    · rw [h1] at h; cases h
    · rw [h1] at h
      obtain ⟨pfiles, st1⟩ := r1
      dsimp only at h
      rcases h2 : writeFilePayloadsList mode zcomp subdirs st1 with _ | r2
      · rw [h2] at h; cases h
      · rw [h2] at h
        obtain ⟨psubs, st3⟩ := r2
        dsimp only at h
        cases h
        obtain ⟨hstok2, hfa⟩ :=
          writeFilePayloadsList_spec2 mode zcomp subdirs st1 psubs _ h2
        refine ⟨rfl, ?_, ?_, ?_, ?_, ?_⟩
        · intro hnil
          have hnil2 : subdirs = [] := hnil
          subst hnil2
          cases hfa
          rfl
        · intro hnil
          have hnil2 : files = [] := hnil
          subst hnil2
          rw [payFilesLoop] at h1
          cases h1
          rfl
        · intro hok
          exact hstok2 (payFilesLoop_stOk mode zcomp files st _ _ h1 hok)
        · intro hsg
          cases hsg with
          | mk nm subs fs hgf hgsn hgs =>
            refine GoodPay.mk nm psubs pfiles ?_ ?_ ?_
            · intro f hf
              have hnames := payFilesLoop_names mode zcomp files st pfiles _ h1
              have hmem : f.1 ∈ pfiles.map Prod.fst :=
                List.mem_map_of_mem _ hf
              rw [hnames] at hmem
              obtain ⟨sf, hsf, he⟩ := List.mem_map.mp hmem
              rw [← he]
              exact hgf sf hsf
            · intro p0 hp0
              obtain ⟨s0, hs0, hrel⟩ := forall2_mem_right hfa p0 hp0
              rw [hrel.1]
              exact hgsn s0 hs0
            · intro p0 hp0
              obtain ⟨s0, hs0, hrel⟩ := forall2_mem_right hfa p0 hp0
              exact hrel.2.2.2.1 (hgs s0 hs0)
        · intro path hpath
          cases hpath with
          | here n d s0 hmem hname hsub hfil =>
            obtain ⟨p0, hp0, hrel⟩ := forall2_mem_left hfa s0 hmem
            refine PayHasEmptyDirAt.here n _ p0 hp0 ?_
              (hrel.2.1 hsub) (hrel.2.2.1 hfil)
            rw [hrel.1]
            exact hname
          | deeper n d s0 pth hmem hname hrec =>
            obtain ⟨p0, hp0, hrel⟩ := forall2_mem_left hfa s0 hmem
            refine PayHasEmptyDirAt.deeper n _ p0 pth hp0 ?_
              (hrel.2.2.2.2 pth hrec)
            rw [hrel.1]
            exact hname

theorem writeFilePayloadsList_spec2 (mode : Nat) (zcomp : List Nat → List Nat) :
    ∀ (l : List ScanDir) (st : AState) (pl : List PayDir) (st2 : AState),
      writeFilePayloadsList mode zcomp l st = some (pl, st2) →
      (StOk st → StOk st2) ∧
      List.Forall₂ (fun s p =>
        PayDir.name p = ScanDir.name s ∧
        (ScanDir.subdirs s = [] → PayDir.subdirs p = []) ∧
        (ScanDir.files s = [] → PayDir.files p = []) ∧
        (ScanGood s → GoodPay p) ∧
        (∀ path, ScanHasEmptyDirAt path s → PayHasEmptyDirAt path p)) l pl
  | [], st, pl, st2, h => by
    rw [writeFilePayloadsList] at h
    cases h
    exact ⟨fun hok => hok, List.Forall₂.nil⟩
  | d :: rest, st, pl, st2, h => by
    rw [writeFilePayloadsList] at h
    rcases h1 : writeFilePayloads mode zcomp d st with _ | r1
    · rw [h1] at h; cases h
    · rw [h1] at h
      obtain ⟨pd, st1⟩ := r1
      dsimp only at h
      rcases h2 : writeFilePayloadsList mode zcomp rest st1 with _ | r2
      · rw [h2] at h; cases h
      · rw [h2] at h
        obtain ⟨pds, st3⟩ := r2
        dsimp only at h
        cases h
        obtain ⟨hn, hs0, hf0, hok1, hgp, hpath⟩ :=
          writeFilePayloads_spec2 mode zcomp d st pd _ h1
        obtain ⟨hok2, hfa⟩ :=
          writeFilePayloadsList_spec2 mode zcomp rest st1 pds _ h2
        exact ⟨fun hok => hok2 (hok1 hok),
          List.Forall₂.cons ⟨hn, hs0, hf0, hgp, hpath⟩ hfa⟩
end

/-! ### From `MatchDir` to parsed empty directories (claim C10) -/

theorem matchSubs_mem : ∀ (subs : List PayDir) (es : List PEntry),
    MatchSubs subs es → ∀ s ∈ subs, ∃ e ∈ es,
      PEntry.name e = PayDir.name s ∧ PEntry.isDirectory e = true ∧
      MatchDir s (PEntry.children e) := by
  intro subs
  induction subs with
  | nil => intro es h s hs; cases hs
  | cons s0 subs ih =>
    intro es h s hs
    cases h with
    | cons a e0 b es2 hname hdir hcomp hmatch htail =>
      rcases List.mem_cons.mp hs with rfl | hs2
      · exact ⟨e0, List.mem_cons_self _ _, hname, hdir, hmatch⟩
      · obtain ⟨e, he, h1, h2, h3⟩ := ih es2 htail s hs2
        exact ⟨e, List.mem_cons_of_mem _ he, h1, h2, h3⟩

theorem matchDir_nil_nil : ∀ {nm : List Nat} {ce : List PEntry},
    MatchDir (PayDir.mk nm [] []) ce → ce = [] := by
  intro nm ce h
  cases h with
  | mk nm2 subs files es1 es2 hsubs hfiles =>
    cases hsubs
    cases hfiles
    rfl

/-- An empty payload subdirectory at a path survives into the
corresponding parsed entries. -/
theorem matchDir_emptyDirAt :
    ∀ (p : List (List Nat)) (pd : PayDir), PayHasEmptyDirAt p pd →
      ∀ es, MatchDir pd es → PHasEmptyDirAt p es := by
  intro p pd h
  induction h with
  | here n d s hmem hname hsub hfil =>
    intro es hm
    cases hm with
    | mk nm subs files es1 es2 hsubs hfiles =>
      obtain ⟨e, he, hen, hed, hechild⟩ := matchSubs_mem _ _ hsubs s hmem
      obtain ⟨sn, ss, sf⟩ := s
      have hss : ss = [] := hsub
      have hsf : sf = [] := hfil
      subst hss
      subst hsf
      have hce : PEntry.children e = [] := matchDir_nil_nil hechild
      refine PHasEmptyDirAt.here n _ e (List.mem_append.mpr (Or.inl he))
        ?_ hed hce
      rw [hen]
      exact hname
  | deeper n d s pth hmem hname hinner ih =>
    intro es hm
    cases hm with
    | mk nm subs files es1 es2 hsubs hfiles =>
      obtain ⟨e, he, hen, hed, hechild⟩ := matchSubs_mem _ _ hsubs s hmem
      refine PHasEmptyDirAt.deeper n _ e pth
        (List.mem_append.mpr (Or.inl he)) ?_ hed (ih _ hechild)
      rw [hen]
      exact hname


/-! ### Master round trip: parsing an assembled archive (claim C10) -/

/-- Assembling with key `0` (identity obfuscation) and parsing back
recovers the directory structure: the parse succeeds on the decrypted
buffer (which is the assembler buffer itself) and yields entries
matching the payload tree. -/
theorem assembleArchive_parse (mode : Nat) (zcomp : List Nat → List Nat)
    (ts : List FsTree) (hgood : ∀ t ∈ ts, FsGood t)
    (payRoot : PayDir) (st1 : AState)
    (hpay : writeFilePayloads mode zcomp (scanDir [] ts) ⟨[], 0x14⟩
      = some (payRoot, st1))
    (hbound : 0x14 + (writeDirectoryTree payRoot st1).1.buffer.length
      < 2 ^ 32) :
    ∃ arc es, assembleArchive mode zcomp 0 ts = some arc ∧
      parseArchiveFull (payDepth payRoot) arc
        = some ((writeDirectoryTree payRoot st1).1.buffer, es) ∧
      MatchDir payRoot es := by
  obtain ⟨hname, hsub0, hfil0, hokcl, hgp, hpathcl⟩ :=
    writeFilePayloads_spec2 mode zcomp (scanDir [] ts) ⟨[], 0x14⟩
      payRoot st1 hpay
  have hok1 : StOk st1 := hokcl (by unfold StOk; rfl)
  have hgpay : GoodPay payRoot := hgp (scanDirF_good _ ts [] hgood)
  have hwdt := writeDirectoryTree_spec payRoot hgpay st1 hok1
  unfold WdtConcl at hwdt
  obtain ⟨hlen8, hpres, hokF, hoff, hbytes, hparse⟩ := hwdt
  obtain ⟨es, hes, hm⟩ := hparse hbound
    (writeDirectoryTree payRoot st1).1.buffer
    (fun i h1 h2 => rfl) (payDepth payRoot) (le_refl _)
  set B := (writeDirectoryTree payRoot st1).1.buffer with hB
  set D := (writeDirectoryTree payRoot st1).2.1 with hD
  have hok1e : st1.currentOffset = 0x14 + st1.buffer.length := hok1
  have hDval : D = st1.currentOffset := hoff
  have hDlt : D < 2 ^ 32 := by
    rw [hDval, hok1e]
    omega
  have hasm : assembleArchive mode zcomp 0 ts
      = some (([72, 65, 80, 73] ++ u32le 0x00010000
        ++ u32le (0x14 + B.length) ++ [0, 0, 0, 0] ++ u32le D) ++ B) := by
    unfold assembleArchive
    rw [if_pos (by norm_num : (0 : Nat) < 256)]
    dsimp only
    rw [hpay]
    dsimp only
    rw [← hB, ← hD]
    rw [show transformKey 0 = 0 from rfl]
    rw [show encryptData B 0 = B from by unfold encryptData; rw [if_pos rfl]]
  set A := ([72, 65, 80, 73] ++ u32le 0x00010000 ++ u32le (0x14 + B.length)
    ++ [0, 0, 0, 0] ++ u32le D) ++ B with hA
  have hAlen : A.length = 20 + B.length := by
    rw [hA]
    simp [u32le]
    omega
  have hA12 : A.getD 12 0 = 0 := by rw [hA]; rfl
  have hAtake : A.take 4 = [72, 65, 80, 73] := by rw [hA]; rfl
  have hAdrop : A.drop 0x14 = B := by rw [hA]; rfl
  have hA16 : readU32 A 16 = some (D % 2 ^ 32) := by
    rw [hA]
    simp only [u32le, List.cons_append, List.nil_append, List.append_assoc]
    apply readU32_of_u32le _ _ D
    intro k hk
    interval_cases k <;> simp [u32le]
  refine ⟨A, es, hasm, ?_, hm⟩
  unfold parseArchiveFull
  rw [if_neg (by omega)]
  dsimp only
  rw [hA12, hA16]
  dsimp only
  rw [Nat.mod_eq_of_lt hDlt]
  rw [show transformKey 0 = 0 from rfl]
  rw [hAdrop]
  rw [show decryptData B 0 = B from by unfold decryptData; rw [if_pos rfl]]
  rw [if_neg (by rw [hAtake]; exact fun hcon => hcon rfl)]
  rw [hes]


/-- C10: Empty directories are preserved.  For every filesystem tree
containing an empty directory at some path (with non-NUL-ASCII names,
so that name strings survive the encode/decode round trip), when the
payload pass succeeds and the archive stays below `2^32` bytes,
`_scan_dir` keeps the directory, `_write_directory_tree` writes it as a
node (with entry count 0, observable as a childless parse), and
`_parse_directory` on the assembled archive (key 0) yields a directory
entry at that path with no children. -/
theorem empty_directory_preserved
    (mode : Nat) (zcomp : List Nat → List Nat) (ts : List FsTree)
    (path : List (List Nat))
    (hgood : ∀ t ∈ ts, FsGood t)
    (hpath : FsHasEmptyDirAt path ts)
    (payRoot : PayDir) (st1 : AState)
    (hpay : writeFilePayloads mode zcomp (scanDir [] ts) ⟨[], 0x14⟩
      = some (payRoot, st1))
    (hbound : 0x14 + (writeDirectoryTree payRoot st1).1.buffer.length
      < 2 ^ 32) :
    ∃ arc buf es, assembleArchive mode zcomp 0 ts = some arc ∧
      parseArchiveFull (payDepth payRoot) arc = some (buf, es) ∧
      PHasEmptyDirAt path es := by
  obtain ⟨arc, es, hasm, hpr, hmatch⟩ :=
    assembleArchive_parse mode zcomp ts hgood payRoot st1 hpay hbound
  obtain ⟨_, _, _, _, _, hpathcl⟩ :=
    writeFilePayloads_spec2 mode zcomp (scanDir [] ts) ⟨[], 0x14⟩
      payRoot st1 hpay
  have hscan : ScanHasEmptyDirAt path (scanDir [] ts) :=
    scanDirF_emptyDirAt path ts hpath (fsTreeListSize ts) (le_refl _) []
  have hpd : PayHasEmptyDirAt path payRoot := hpathcl path hscan
  exact ⟨arc, _, es, hasm, hpr,
    matchDir_emptyDirAt path payRoot hpd es hmatch⟩

/-- Witness for C10 on the tree `{"a": empty directory}`, stored mode,
key 0. -/
theorem empty_directory_preserved_witness :
    ∃ arc buf es, assembleArchive 0 (fun _ => []) 0 [FsTree.dir [97] []]
        = some arc ∧
      parseArchiveFull (payDepth (PayDir.mk [] [PayDir.mk [97] [] []] []))
        arc = some (buf, es) ∧
      PHasEmptyDirAt [[97]] es :=
  empty_directory_preserved 0 (fun _ => []) [FsTree.dir [97] []] [[97]]
    (fun t ht => by
      rcases List.mem_cons.mp ht with rfl | h2
      · refine FsGood.dir [97] [] ?_ (fun t2 ht2 => nomatch ht2)
        intro b hb
        rcases List.mem_cons.mp hb with rfl | h3
        · exact ⟨by norm_num, by norm_num⟩
        · cases h3
      · cases h2)
    (FsHasEmptyDirAt.here [97] _ (List.mem_cons_self _ _))
    (PayDir.mk [] [PayDir.mk [97] [] []] []) ⟨[], 0x14⟩
    rfl
    (by decide)

end HPI
